import Mathlib

/-
Shallow embedding of the ShiCo temporal vocabulary-tracking core:
  - shico/format.py           (getRangeMiddle)
  - shico/extras/termlistcleaner.py  (cleanTermList, _isCloseToList)
  - shico/vocabularymonitor.py (VocabularyMonitor.trackClouds and helpers)

Modelling conventions:
  - Python floats (similarities, weights, thresholds) are modelled as exact
    rationals (ℚ).  All values reachable in the claims are small exact
    ratios, for which IEEE double comparison agrees with exact rational
    comparison, except where noted in a definition comment.
  - A Python dict is modelled as an insertion-ordered association list;
    a SortedDict as an association list kept sorted by `strLe` on keys.
  - Code that raises returns `Except String` (or `Option` where the only
    failure is a crash); a raised exception is an `Except.error`.
  - The per-seed thread fan-out followed by `join` and `queries.sort()`
    is modelled as `List.map` followed by a stable sort on the seed term:
    the query result is a function of the term, so after the sort the
    outcome is independent of thread completion order.
-/

namespace ShiCo

/- ---------------------------------------------------------------- -/
/- Generic helpers: Python string comparison and stable sorting.    -/
/- ---------------------------------------------------------------- -/

/-- Lexicographic comparison of character lists by code point, as Python
compares strings.  Comparing `toNat` of the characters is equivalent to
comparing the characters themselves since `Char.toNat` is injective. -/
def charListLe : List Char → List Char → Bool
  | [], _ => true
  | _ :: _, [] => false
  | a :: as, b :: bs =>
    if a.toNat = b.toNat then charListLe as bs else decide (a.toNat < b.toNat)

/-- Python `a <= b` on strings (code-point lexicographic order). -/
def strLe (a b : String) : Bool := charListLe a.toList b.toList

/-- Insert `x` into `l` after every element `y` with `le y x`; on an
`le`-sorted list this is a stable sorted insertion. -/
def stableInsert (le : α → α → Bool) (x : α) : List α → List α
  | [] => [x]
  | y :: ys => if le y x then y :: stableInsert le x ys else x :: y :: ys

/-- Stable sort (model of Python `list.sort`, which is stable). -/
def stableSort (le : α → α → Bool) (l : List α) : List α :=
  l.foldl (fun acc x => stableInsert le x acc) []

/- ---------------------------------------------------------------- -/
/- shico/format.py                                                  -/
/- ---------------------------------------------------------------- -/

/-- Python 3 `round(s / 2)` for a natural number `s`: the average `s / 2`
rounded half-to-even (banker's rounding, the semantics of Python 3
`round` on the exactly representable value `s / 2`). -/
def pyRoundHalf (s : Nat) : Nat :=
  if s % 2 = 0 then s / 2
  else if (s / 2) % 2 = 0 then s / 2 else s / 2 + 1

/-- Python `int` on a string of decimal digits. -/
def digitsToNat (cs : List Char) : Nat :=
  cs.foldl (fun n c => n * 10 + (c.toNat - 48)) 0

/-- `int(s.split('_')[0])`: the year before the first underscore. -/
def yearBefore (s : String) : Nat :=
  digitsToNat (s.toList.takeWhile (fun c => c ≠ '_'))

/-- `int(s.split('_')[1])`: the year between the first and second
underscore (for well-formed keys, the part after the underscore). -/
def yearAfter (s : String) : Nat :=
  digitsToNat ((((s.toList.dropWhile (fun c => c ≠ '_')).drop 1).takeWhile
    (fun c => c ≠ '_')))

/-- `format.getRangeMiddle(first, last=None)`: the middle year
`round((yn + y0) / 2)` where `y0` is the start year of `first` and `yn`
the end year of `last` (defaulting to `first`). -/
def getRangeMiddle (first : String) (last : Option String) : Nat :=
  let lastKey := last.getD first
  pyRoundHalf (yearAfter lastKey + yearBefore first)

/- ---------------------------------------------------------------- -/
/- shico/extras/termlistcleaner.py                                  -/
/- ---------------------------------------------------------------- -/

/-- `editdistance.eval(a, b)`: Levenshtein distance with unit costs
(the external `editdistance` package used by the source). -/
def editDist (a b : String) : Nat :=
  levenshtein Levenshtein.defaultCost a.toList b.toList

/-- The fixed threshold `minEditDiff = 0.20` of `cleanTermList`,
modelled as the exact rational 1/5. -/
def minEditDiff : ℚ := 1 / 5

/-- The normalized edit distance
`editdistance.eval(word, known) / min(len(word), len(known))`
computed by `_isCloseToList` (total version; the division-by-zero crash
is modelled separately in `isCloseAux`). -/
def normDiff (word known : String) : ℚ :=
  (editDist word known : ℚ) / (min word.length known.length : ℚ)

/-- The `for known, _ in cleanTerms` loop of `_isCloseToList`: returns
`some true` at the first accepted term closer than the threshold,
`some false` if the loop completes, and `none` for the Python
`ZeroDivisionError` when `min(len(word), len(known)) == 0`. -/
def isCloseAux (word : String) (minDiff : ℚ) :
    List (String × ℚ) → Option Bool
  | [] => some false
  | (known, _) :: rest =>
    if min word.length known.length = 0 then none
    else if normDiff word known < minDiff then some true
    else isCloseAux word minDiff rest

/-- `termlistcleaner._isCloseToList(word, cleanTerms, minEditDiff)`. -/
def _isCloseToList (word : String) (cleanTerms : List (String × ℚ))
    (minDiff : ℚ) : Option Bool :=
  if cleanTerms.isEmpty then some false else isCloseAux word minDiff cleanTerms

/-- The `for word, weight in termList` loop of `cleanTermList`,
carrying the accumulator `cleanTerms` of accepted terms. -/
def cleanLoop (minDiff : ℚ) (cleanTerms : List (String × ℚ)) :
    List (String × ℚ) → Option (List (String × ℚ))
  | [] => some cleanTerms
  | (word, weight) :: rest =>
    match _isCloseToList word cleanTerms minDiff with
    | none => none
    | some true => cleanLoop minDiff cleanTerms rest
    | some false => cleanLoop minDiff (cleanTerms ++ [(word, weight)]) rest

/-- `termlistcleaner.cleanTermList(termList)`; `none` models the call
dying with `ZeroDivisionError`. -/
def cleanTermList (termList : List (String × ℚ)) :
    Option (List (String × ℚ)) :=
  cleanLoop minEditDiff [] termList

/- ---------------------------------------------------------------- -/
/- shico/vocabularymonitor.py                                       -/
/- ---------------------------------------------------------------- -/

/-- A period's vocabulary: a list of `(word, weight)` pairs. -/
abbrev TermWeights := List (String × ℚ)

/-- A period's link set: seed term ↦ list of `(word, distance)` pairs. -/
abbrev LinkSet := List (String × List (String × ℚ))

/-- A gensim word2vec model (or its caching wrapper, which returns the
same values): `most_similar term topn` is the ranked neighbor list, or
`none` for the `KeyError` raised on a term unknown to the model. -/
structure W2VModel where
  most_similar : String → Nat → Option (List (String × ℚ))

/-- An optional cleaning function (e.g. `cleanTermList`), applied to a
seed's raw neighbor list.  Callers of `trackClouds` pass total
functions, so this is modelled as a pure list transformer. -/
abbrev CleaningFunction := Option (List (String × ℚ) → List (String × ℚ))

/-- `_getRelatedTermsThread(model, term, maxRelatedTerms, queries,
cleaningFunction)`: one worker's contribution to `queries` — the pair
`(term, newTerms)`, with the `KeyError` of an unknown term caught and
turned into an empty neighbor list. -/
def _getRelatedTermsThread (model : W2VModel) (term : String)
    (maxRelatedTerms : Nat) (cleaningFunction : CleaningFunction) :
    String × List (String × ℚ) :=
  match model.most_similar term maxRelatedTerms with
  | none => (term, [])
  | some newTerms =>
    match cleaningFunction with
    | none => (term, newTerms)
    | some f => (term, f newTerms)

/-- `_getRelatedTerms(model, seedTerms, maxRelatedTerms,
cleaningFunction)`: all workers joined, then `queries.sort()`.  Python
sorts the `(term, newTerms)` tuples; since `newTerms` is a function of
`term`, sorting stably on the term alone yields the same list. -/
def _getRelatedTerms (model : W2VModel) (seedTerms : List String)
    (maxRelatedTerms : Nat) (cleaningFunction : CleaningFunction) :
    List (String × List (String × ℚ)) :=
  stableSort (fun a b => strLe a.1 b.1)
    (seedTerms.map (fun t =>
      _getRelatedTermsThread model t maxRelatedTerms cleaningFunction))

/-- Association-list lookup (the value stored under a key of a Python
dict, when present). -/
def alookup (k : String) : List (String × α) → Option α
  | [] => none
  | (a, b) :: rest => if a = k then some b else alookup k rest

/-- Read access `d[k]` on the insertion-ordered `defaultdict(float)`
`dRelatedTerms` (missing keys default to `0.0`). -/
def dGet (d : TermWeights) (k : String) : ℚ := (alookup k d).getD 0

/-- Assignment `d[k] = v` on an insertion-ordered dict: an existing key
keeps its position, a new key is appended. -/
def dSet (d : TermWeights) (k : String) (v : ℚ) : TermWeights :=
  if d.any (fun p => p.1 = k) then
    d.map (fun p => if p.1 = k then (k, v) else p)
  else d ++ [(k, v)]

/-- `d[k] += v` on the `defaultdict(float)`. -/
def dAdd (d : TermWeights) (k : String) (v : ℚ) : TermWeights :=
  dSet d k (dGet d k + v)

/-- `links[k].append(v)` on the insertion-ordered `defaultdict(list)`. -/
def lAppend (links : LinkSet) (k : String) (v : String × ℚ) : LinkSet :=
  if links.any (fun p => p.1 = k) then
    links.map (fun p => if p.1 = k then (p.1, p.2 ++ [v]) else p)
  else links ++ [(k, [v])]

/-- The `for newTerm, tSim in newTerms` loop of `_trackCore`: terms are
consumed in order and `if tSim < minSim: break` abandons the rest of
the list at the first similarity below the threshold. -/
def processNeighbors (minSim : ℚ) : List (String × ℚ) → List (String × ℚ)
  | [] => []
  | (newTerm, tSim) :: rest =>
    if tSim < minSim then [] else (newTerm, tSim) :: processNeighbors minSim rest

/-- One iteration of the `for term, newTerms in relatedTermQueries`
loop of `_trackCore`: assigns `dRelatedTerms[term] = wordBoost`, links
the seed to itself at distance 0, then accumulates each surviving
neighbor with `dRelatedTerms[newTerm] += reward(tSim)` and records the
link. -/
def accumSeed (minSim wordBoost : ℚ) (reward : ℚ → ℚ)
    (st : TermWeights × LinkSet) (q : String × List (String × ℚ)) :
    TermWeights × LinkSet :=
  let d := dSet st.1 q.1 wordBoost
  let links := lAppend st.2 q.1 (q.1, 0)
  (processNeighbors minSim q.2).foldl
    (fun st2 p => (dAdd st2.1 p.1 (reward p.2), lAppend st2.2 q.1 p))
    (d, links)

/-- The whole first-tier accumulation loop of `_trackCore`, starting
from the empty `dRelatedTerms` and `links`. -/
def accumulate (minSim wordBoost : ℚ) (reward : ℚ → ℚ)
    (queries : List (String × List (String × ℚ))) : TermWeights × LinkSet :=
  queries.foldl (accumSeed minSim wordBoost reward) ([], [])

/-- Specification-side quantity for C3: the total reward contributed to
term `s` by the surviving neighbors of the single query `q` (every
occurrence of `s` in the prefix of `q`'s neighbor list that survives
the `minSim` cutoff). -/
def seedContrib (minSim : ℚ) (reward : ℚ → ℚ) (s : String)
    (q : String × List (String × ℚ)) : ℚ :=
  (((processNeighbors minSim q.2).filter (fun p => p.1 = s)).map
    (fun p => reward p.2)).sum

/-- `_getCommonTerms(terms, N)`: `Counter(terms).most_common(N)` — the
top `N` entries by descending weight; Python's `most_common` is
equivalent to a stable descending sort followed by truncation, with
ties kept in insertion order. -/
def _getCommonTerms (terms : TermWeights) (n : Nat) : TermWeights :=
  (stableSort (fun a b => !(a.2 < b.2)) terms).take n

/-- `_pruned(pairs, words)`: keep only pairs whose word is selected. -/
def _pruned (pairs : List (String × ℚ)) (words : List String) :
    List (String × ℚ) :=
  pairs.filter (fun p => words.contains p.1)

/-- `VocabularyMonitor._trackCore(model, seedTerms, maxTerms,
maxRelatedTerms, minSim, wordBoost, reward, cleaningFunction)`. -/
def _trackCore (model : W2VModel) (seedTerms : List String)
    (maxTerms maxRelatedTerms : Nat) (minSim wordBoost : ℚ)
    (reward : ℚ → ℚ) (cleaningFunction : CleaningFunction) :
    TermWeights × LinkSet :=
  let queries := _getRelatedTerms model seedTerms maxRelatedTerms cleaningFunction
  let acc := accumulate minSim wordBoost reward queries
  let topTerms := _getCommonTerms acc.1 maxTerms
  let selectedTerms := topTerms.map (fun p => p.1)
  (topTerms, acc.2.map (fun p => (p.1, _pruned p.2 selectedTerms)))

/-- `VocabularyMonitor._trackInlink(...)`: dispatches to `_trackCore`
and builds the new seed set from the produced terms.  Note that in the
`sumSimilarity = False` branch the Python call omits `wordBoost` and
`reward`, so their defaults `1.0` and `lambda x: 1.0` apply. -/
def _trackInlink (model : W2VModel) (seedTerms : List String)
    (maxTerms maxRelatedTerms : Nat) (minSim wordBoost : ℚ)
    (sumSimilarity : Bool) (cleaningFunction : CleaningFunction) :
    TermWeights × LinkSet × List String :=
  let tl :=
    if sumSimilarity then
      _trackCore model seedTerms maxTerms maxRelatedTerms minSim wordBoost
        (fun tSim => 1 - tSim) cleaningFunction
    else
      _trackCore model seedTerms maxTerms maxRelatedTerms minSim 1
        (fun _ => 1) cleaningFunction
  (tl.1, tl.2, tl.1.map (fun p => p.1))

/-- The `startKey` selection of `trackClouds`: drop everything before
`startKey`; an absent key raises `KeyError`. -/
def selectStart (sortedKeys : List String) (startKey : Option String) :
    Except String (List String) :=
  match startKey with
  | none => Except.ok sortedKeys
  | some sk =>
    if sk ∈ sortedKeys then
      Except.ok (sortedKeys.drop (sortedKeys.indexOf sk))
    else Except.error ("Key " ++ sk ++ " not a valid model index")

/-- The `endKey` selection of `trackClouds`: keep everything strictly
before `endKey`, checked against the list already sliced from
`startKey`; an absent key raises `KeyError`. -/
def selectEnd (keys1 : List String) (endKey : Option String) :
    Except String (List String) :=
  match endKey with
  | none => Except.ok keys1
  | some ek =>
    if ek ∈ keys1 then Except.ok (keys1.take (keys1.indexOf ek))
    else Except.error ("Key " ++ ek ++ " not a valid model index")

/-- The start/end key selection of `trackClouds`: slice `sortedKeys` to
the half-open index range `[startKey, endKey)`. -/
def selectKeys (sortedKeys : List String) (startKey endKey : Option String) :
    Except String (List String) :=
  match selectStart sortedKeys startKey with
  | Except.error e => Except.error e
  | Except.ok keys1 => selectEnd keys1 endKey

/-- Specification-side description of the selected period range (C5):
the keys in the half-open chronological interval `[startKey, endKey)`,
the whole sequence where a bound is omitted. -/
def specSelect (keys : List String) (startKey endKey : Option String) :
    List String :=
  keys.filter (fun k =>
    (match startKey with
     | none => true
     | some sk => strLe sk k) &&
    (match endKey with
     | none => true
     | some ek => !(strLe ek k)))

/-- The `for sKey in sortedKeys` loop of `trackClouds`, returning the
per-period results in processing order as `(key, terms, links)`
triples.  `self._models[sKey]` raising `KeyError` on an absent key is
the `none` branch of the lookup; an unsupported algorithm raises inside
the loop body. -/
def trackLoop (models : List (String × W2VModel))
    (maxTerms maxRelatedTerms : Nat) (minSim wordBoost : ℚ)
    (sumSimilarity : Bool) (algorithm : String)
    (cleaningFunction : CleaningFunction) :
    List String → List String →
    Except String (List (String × TermWeights × LinkSet))
  | [], _ => Except.ok []
  | sKey :: rest, aSeedSet =>
    match models.lookup sKey with
    | none => Except.error ("Key " ++ sKey ++ " not a valid model index")
    | some model =>
      if algorithm = "adaptive" then
        match trackLoop models maxTerms maxRelatedTerms minSim wordBoost
            sumSimilarity algorithm cleaningFunction rest
            (_trackInlink model aSeedSet maxTerms maxRelatedTerms minSim
              wordBoost sumSimilarity cleaningFunction).2.2 with
        | Except.error e => Except.error e
        | Except.ok rs =>
          Except.ok ((sKey,
            (_trackInlink model aSeedSet maxTerms maxRelatedTerms minSim
              wordBoost sumSimilarity cleaningFunction).1,
            (_trackInlink model aSeedSet maxTerms maxRelatedTerms minSim
              wordBoost sumSimilarity cleaningFunction).2.1) :: rs)
      else if algorithm = "non-adaptive" then
        -- the Python call omits wordBoost and reward: defaults 1.0 apply
        match trackLoop models maxTerms maxRelatedTerms minSim wordBoost
            sumSimilarity algorithm cleaningFunction rest aSeedSet with
        | Except.error e => Except.error e
        | Except.ok rs =>
          Except.ok ((sKey,
            (_trackCore model aSeedSet maxTerms maxRelatedTerms minSim 1
              (fun _ => 1) cleaningFunction).1,
            (_trackCore model aSeedSet maxTerms maxRelatedTerms minSim 1
              (fun _ => 1) cleaningFunction).2) :: rs)
      else Except.error ("Algorithm not supported: " ++ algorithm)

/-- Insertion into a `SortedDict`: keys are kept in ascending `strLe`
order; writing an existing key replaces its value in place. -/
def sdInsert (k : String) (v : α) : List (String × α) → List (String × α)
  | [] => [(k, v)]
  | (k2, v2) :: rest =>
    if k = k2 then (k, v) :: rest
    else if strLe k k2 then (k, v) :: (k2, v2) :: rest
    else (k2, v2) :: sdInsert k v rest

/-- `VocabularyMonitor.trackClouds(...)`.  `models` is the monitor's
`self._models` `SortedDict` as a key-sorted association list; the
returned pair is the `(yTerms, yLinks)` `SortedDict`s, built by
inserting each processed period's results under its key. -/
def trackClouds (models : List (String × W2VModel))
    (seedTerms : List String) (maxTerms maxRelatedTerms : Nat)
    (startKey endKey : Option String) (minSim wordBoost : ℚ)
    (forwards sumSimilarity : Bool) (algorithm : String)
    (cleaningFunction : CleaningFunction) :
    Except String (List (String × TermWeights) × List (String × LinkSet)) :=
  match selectKeys (models.map (fun p => p.1)) startKey endKey with
  | Except.error e => Except.error e
  | Except.ok selected =>
    match trackLoop models maxTerms maxRelatedTerms minSim wordBoost
        sumSimilarity algorithm cleaningFunction
        (if forwards then selected else selected.reverse) seedTerms with
    | Except.error e => Except.error e
    | Except.ok results =>
      Except.ok
        (results.foldl (fun d r => sdInsert r.1 r.2.1 d) [],
         results.foldl (fun d r => sdInsert r.1 r.2.2 d) [])

/-- Specification-side seed-propagation relation for C6 (adaptive
mode): a run of per-period results starting from seed set `seeds` is
admissible when each processed period's `(terms, links)` come from
`_trackInlink` on the current seed set and the following period
continues from exactly the terms of this period stripped of their
weights. -/
inductive AdaptiveSeeds (models : List (String × W2VModel))
    (maxTerms maxRelatedTerms : Nat) (minSim wordBoost : ℚ)
    (sumSimilarity : Bool) (cf : CleaningFunction) :
    List String → List (String × TermWeights × LinkSet) → Prop
  | nil (seeds : List String) :
      AdaptiveSeeds models maxTerms maxRelatedTerms minSim wordBoost
        sumSimilarity cf seeds []
  | cons (seeds : List String) (k : String) (m : W2VModel)
      (t : TermWeights) (l : LinkSet)
      (rest : List (String × TermWeights × LinkSet)) :
      models.lookup k = some m →
      t = (_trackInlink m seeds maxTerms maxRelatedTerms minSim wordBoost
        sumSimilarity cf).1 →
      l = (_trackInlink m seeds maxTerms maxRelatedTerms minSim wordBoost
        sumSimilarity cf).2.1 →
      AdaptiveSeeds models maxTerms maxRelatedTerms minSim wordBoost
        sumSimilarity cf (t.map (fun p => p.1)) rest →
      AdaptiveSeeds models maxTerms maxRelatedTerms minSim wordBoost
        sumSimilarity cf seeds ((k, t, l) :: rest)

/- ---------------------------------------------------------------- -/
/- Concrete instances used in counterexamples and witnesses.        -/
/- ---------------------------------------------------------------- -/

/-- A model to which every term is unknown: every `most_similar` query
raises `KeyError`, i.e. yields `none`. -/
def modelAllUnknown : W2VModel := ⟨fun _ _ => none⟩

/-- A two-period monitor (the `_models` of a `VocabularyMonitor`) with
chronologically named keys. -/
def twoPeriodModels : List (String × W2VModel) :=
  [("1990_1999", modelAllUnknown), ("2000_2009", modelAllUnknown)]

/-- A model where seed `a` has the (also-seed) neighbor `b` at
similarity 9, and `b` has no neighbors. -/
def modelAB : W2VModel :=
  ⟨fun t _ => if t = "a" then some [("b", 9)] else
    if t = "b" then some [] else none⟩

/- ---------------------------------------------------------------- -/
/- C2: PeriodKey midpoint.                                          -/
/- ---------------------------------------------------------------- -/

/-- C2, counterexample: the claim says the midpoint of the single key
`'1950_1959'` is 1955, but `getRangeMiddle` computes Python 3
`round(1954.5)`, which rounds half to even and returns 1954. -/
theorem c2_counterexample :
    getRangeMiddle "1950_1959" none = 1954 ∧ (1954 : Nat) ≠ 1955 :=
  ⟨by decide, by decide⟩

/-- C2, amended: the midpoint of `'1950_1959'` is 1954 and of the pair
`('1950_1959', '1953_1962')` is 1956; in general `getRangeMiddle` is
the average of the earliest start year and the latest end year rounded
half-to-even: `pyRoundHalf s` (with `s` the sum of the two years)
doubles back to `s` exactly when `s` is even, and otherwise is the even
neighbor of the half-integer average. -/
theorem c2_range_middle (s : Nat) :
    getRangeMiddle "1950_1959" none = 1954 ∧
    getRangeMiddle "1950_1959" (some "1953_1962") = 1956 ∧
    (2 * pyRoundHalf s = s ∨
      (s % 2 = 1 ∧ pyRoundHalf s % 2 = 0 ∧
        (2 * pyRoundHalf s = s + 1 ∨ 2 * pyRoundHalf s + 1 = s))) := by
  refine ⟨by decide, by decide, ?_⟩
  unfold pyRoundHalf
  split
  · omega
  · split <;> omega

/- ---------------------------------------------------------------- -/
/- C7: minSimilarity prefix cutoff.                                 -/
/- ---------------------------------------------------------------- -/

/-- C7, confirmed: the neighbors of a seed that survive the
`if tSim < minSim: break` loop are exactly the longest prefix of the
neighbor list in which every similarity is at least `minSim`; in
particular a later neighbor at or above the threshold is still
excluded once an earlier one fell below it. -/
theorem c7_prefix_cutoff (minSim : ℚ) (ns : List (String × ℚ)) :
    processNeighbors minSim ns = ns.takeWhile (fun p => decide (minSim ≤ p.2)) ∧
    processNeighbors 5 [("x", 9), ("y", 1), ("z", 19)] = [("x", 9)] := by
  refine ⟨?_, by decide⟩
  induction ns with
  | nil => rfl
  | cons p rest ih =>
    obtain ⟨t, sim⟩ := p
    by_cases h : sim < minSim
    · simp [processNeighbors, List.takeWhile, h, not_le.mpr h]
    · simp [processNeighbors, List.takeWhile, h, not_lt.mp h, ih]

/- ---------------------------------------------------------------- -/
/- Lemmas about the near-duplicate filter.                          -/
/- ---------------------------------------------------------------- -/

/-- When the candidate and every accepted term are non-empty, the
`_isCloseToList` loop never divides by zero and decides whether some
accepted term is within the threshold. -/
theorem isCloseAux_eq_decide (word : String) (minDiff : ℚ)
    (acc : List (String × ℚ)) (hw : word.length ≠ 0)
    (hacc : ∀ p ∈ acc, (p : String × ℚ).1.length ≠ 0) :
    isCloseAux word minDiff acc =
      some (decide (∃ p ∈ acc, normDiff word p.1 < minDiff)) := by
  induction acc with
  | nil => simp [isCloseAux]
  | cons q rest ih =>
    obtain ⟨known, kw⟩ := q
    have hk : known.length ≠ 0 := hacc (known, kw) (by simp)
    have hmin : ¬ (min word.length known.length = 0) := by
      simp [Nat.min_eq_zero_iff, hw, hk]
    by_cases hlt : normDiff word known < minDiff
    · simp [isCloseAux, hmin, hlt]
    · have := ih (fun p hp => hacc p (by simp [hp]))
      simp [isCloseAux, hmin, hlt, this]

/-- Same statement for `_isCloseToList` (whose empty-list early return
agrees with the loop). -/
theorem isCloseToList_eq_decide (word : String) (minDiff : ℚ)
    (acc : List (String × ℚ)) (hw : word.length ≠ 0)
    (hacc : ∀ p ∈ acc, (p : String × ℚ).1.length ≠ 0) :
    _isCloseToList word acc minDiff =
      some (decide (∃ p ∈ acc, normDiff word p.1 < minDiff)) := by
  cases acc with
  | nil => simp [_isCloseToList]
  | cons q rest =>
    rw [_isCloseToList, if_neg (by simp)]
    exact isCloseAux_eq_decide word minDiff (q :: rest) hw hacc

/-- A candidate whose word is empty makes `_isCloseToList` divide by
zero at the very first accepted term. -/
theorem isCloseToList_empty_word (acc : List (String × ℚ)) (minDiff : ℚ)
    (h : acc ≠ []) : _isCloseToList "" acc minDiff = none := by
  cases acc with
  | nil => exact absurd rfl h
  | cons q rest =>
    rw [_isCloseToList, if_neg (by simp)]
    simp [isCloseAux]

/-- The clean loop completes when the accumulator and all remaining
words are non-empty. -/
theorem cleanLoop_isSome (minDiff : ℚ) :
    ∀ (l acc : List (String × ℚ)),
    (∀ p ∈ acc, (p : String × ℚ).1.length ≠ 0) →
    (∀ p ∈ l, (p : String × ℚ).1.length ≠ 0) →
    (cleanLoop minDiff acc l).isSome = true := by
  intro l
  induction l with
  | nil => intro acc _ _; simp [cleanLoop]
  | cons q rest ih =>
    intro acc hacc hl
    obtain ⟨word, weight⟩ := q
    have hw : word.length ≠ 0 := hl (word, weight) (by simp)
    have hrest : ∀ p ∈ rest, (p : String × ℚ).1.length ≠ 0 :=
      fun p hp => hl p (by simp [hp])
    rw [cleanLoop, isCloseToList_eq_decide word minDiff acc hw hacc]
    by_cases hex : ∃ p ∈ acc, normDiff word p.1 < minDiff
    · rw [decide_eq_true hex]
      exact ih acc hacc hrest
    · rw [decide_eq_false hex]
      refine ih (acc ++ [(word, weight)]) ?_ hrest
      intro p hp
      rcases List.mem_append.mp hp with h1 | h1
      · exact hacc p h1
      · simp only [List.mem_singleton] at h1
        subst h1
        exact hw

/-- Once at least one term has been accepted, an empty-word pair later
in the input makes the clean loop fail. -/
theorem cleanLoop_empty_crash (minDiff : ℚ) (w : ℚ) :
    ∀ (l acc : List (String × ℚ)), acc ≠ [] → ("", w) ∈ l →
    cleanLoop minDiff acc l = none := by
  intro l
  induction l with
  | nil => intro acc _ hmem; exact absurd hmem (by simp)
  | cons q rest ih =>
    intro acc hacc hmem
    obtain ⟨x, wt⟩ := q
    by_cases hx : x = ""
    · subst hx
      rw [cleanLoop, isCloseToList_empty_word acc minDiff hacc]
    · have hmem2 : ("", w) ∈ rest := by
        rcases List.mem_cons.mp hmem with h1 | h1
        · exact absurd (congrArg Prod.fst h1).symm hx
        · exact h1
      rw [cleanLoop]
      cases hres : _isCloseToList x acc minDiff with
      | none => rfl
      | some b =>
        cases b with
        | true => exact ih acc hacc hmem2
        | false => exact ih (acc ++ [(x, wt)]) (by simp) hmem2

/- ---------------------------------------------------------------- -/
/- C8: near-duplicate filter semantics.                             -/
/- ---------------------------------------------------------------- -/

/-- C8, confirmed: the filter processes its input in order and accepts
a candidate (with non-empty words in play) exactly when its normalized
edit distance to every already-accepted term is at least the 0.20
threshold; concretely `corlog` is dropped next to `oorlog` (1/6 < 1/5)
while `geboorteplek` is kept (8/6 ≥ 1/5). -/
theorem c8_duplicate_filter (word : String) (weight : ℚ)
    (acc rest : List (String × ℚ)) (hw : word.length ≠ 0)
    (hacc : ∀ p ∈ acc, (p : String × ℚ).1.length ≠ 0) :
    (cleanLoop minEditDiff acc ((word, weight) :: rest) =
      if ∀ p ∈ acc, minEditDiff ≤ normDiff word p.1
      then cleanLoop minEditDiff (acc ++ [(word, weight)]) rest
      else cleanLoop minEditDiff acc rest) ∧
    cleanTermList [("oorlog", 8), ("corlog", 2)] = some [("oorlog", 8)] ∧
    cleanTermList [("oorlog", 8), ("geboorteplek", 4)] =
      some [("oorlog", 8), ("geboorteplek", 4)] := by
  refine ⟨?_, ?_, ?_⟩
  · rw [cleanLoop, isCloseToList_eq_decide word minEditDiff acc hw hacc]
    by_cases hall : ∀ p ∈ acc, minEditDiff ≤ normDiff word p.1
    · have hex : ¬ ∃ p ∈ acc, normDiff word p.1 < minEditDiff := by
        push_neg
        exact hall
      rw [decide_eq_false hex, if_pos hall]
    · have hex : ∃ p ∈ acc, normDiff word p.1 < minEditDiff := by
        have h2 := hall
        push_neg at h2
        exact h2
      rw [decide_eq_true hex, if_neg hall]
  · simp only [cleanTermList, cleanLoop, _isCloseToList, isCloseAux]
    norm_num [normDiff, minEditDiff,
      show editDist "corlog" "oorlog" = 1 from by decide,
      show ("corlog" : String).length = 6 from by decide,
      show ("oorlog" : String).length = 6 from by decide]
  · simp only [cleanTermList, cleanLoop, _isCloseToList, isCloseAux]
    norm_num [normDiff, minEditDiff,
      show editDist "geboorteplek" "oorlog" = 8 from by decide,
      show ("geboorteplek" : String).length = 12 from by decide,
      show ("oorlog" : String).length = 6 from by decide]

/-- C8, witness: the acceptance rule applied at `geboorteplek` against
the already-accepted `oorlog`. -/
theorem c8_duplicate_filter_witness :
    (cleanLoop minEditDiff [("oorlog", 8)] [("geboorteplek", 4)] =
      if ∀ p ∈ [(("oorlog" : String), (8 : ℚ))],
          minEditDiff ≤ normDiff "geboorteplek" p.1
      then cleanLoop minEditDiff ([("oorlog", 8)] ++ [("geboorteplek", 4)]) []
      else cleanLoop minEditDiff [("oorlog", 8)] []) ∧
    cleanTermList [("oorlog", 8), ("corlog", 2)] = some [("oorlog", 8)] ∧
    cleanTermList [("oorlog", 8), ("geboorteplek", 4)] =
      some [("oorlog", 8), ("geboorteplek", 4)] :=
  c8_duplicate_filter "geboorteplek" 4 [("oorlog", 8)] [] (by decide)
    (by decide)

/- ---------------------------------------------------------------- -/
/- C10: totality of the filter.                                     -/
/- ---------------------------------------------------------------- -/

/-- C10, confirmed: the filter is total on inputs whose words are all
non-empty, and an empty-string word occurring after at least one term
has been accepted (the leading term is always accepted) makes the
normalized-distance computation divide by zero, so the call fails
(returns `none`) instead of producing a filtered list. -/
theorem c10_empty_word (t : String × ℚ) (rest : List (String × ℚ)) (w : ℚ)
    (hmem : ("", w) ∈ rest) :
    cleanTermList (t :: rest) = none ∧
    (∀ ts : List (String × ℚ), (∀ p ∈ ts, (p : String × ℚ).1.length ≠ 0) →
      (cleanTermList ts).isSome = true) := by
  constructor
  · obtain ⟨tw, twt⟩ := t
    rw [cleanTermList, cleanLoop]
    have : _isCloseToList tw [] minEditDiff = some false := by
      simp [_isCloseToList]
    rw [this]
    exact cleanLoop_empty_crash minEditDiff w rest [(tw, twt)] (by simp) hmem
  · intro ts hts
    exact cleanLoop_isSome minEditDiff ts [] (by simp) hts

/-- C10, witness: a concrete crash after one accepted term. -/
theorem c10_empty_word_witness :
    cleanTermList [("oorlog", 1), ("", 2)] = none ∧
    (∀ ts : List (String × ℚ), (∀ p ∈ ts, (p : String × ℚ).1.length ≠ 0) →
      (cleanTermList ts).isSome = true) :=
  c10_empty_word ("oorlog", 1) [("", 2)] 2 (by decide)

/- ---------------------------------------------------------------- -/
/- Lemmas about the insertion-ordered weight dict.                  -/
/- ---------------------------------------------------------------- -/

/-- Lookup after the in-place replacement performed by `dSet` on a
present key. -/
theorem alookup_map_replace (k : String) (v : ℚ) :
    ∀ d : TermWeights, d.any (fun p => p.1 = k) = true →
    alookup k (d.map (fun p => if p.1 = k then (k, v) else p)) = some v := by
  intro d
  induction d with
  | nil => intro h; simp at h
  | cons q rest ih =>
    intro h
    obtain ⟨a, b⟩ := q
    simp only [List.map_cons]
    by_cases ha : a = k
    · subst ha
      rw [if_pos rfl]
      simp [alookup]
    · have h2 : rest.any (fun p => p.1 = k) = true := by
        simpa [ha] using h
      rw [if_neg ha]
      simp only [alookup]
      rw [if_neg ha]
      exact ih h2

/-- The replacement map of `dSet` leaves other keys untouched. -/
theorem alookup_map_replace_ne (k : String) (v : ℚ) (k2 : String)
    (hne : k2 ≠ k) :
    ∀ d : TermWeights,
    alookup k2 (d.map (fun p => if p.1 = k then (k, v) else p)) =
      alookup k2 d := by
  intro d
  induction d with
  | nil => rfl
  | cons q rest ih =>
    obtain ⟨a, b⟩ := q
    simp only [List.map_cons]
    by_cases ha : a = k
    · subst ha
      rw [if_pos rfl]
      simp only [alookup]
      rw [if_neg (Ne.symm hne), if_neg (Ne.symm hne)]
      exact ih
    · rw [if_neg ha]
      simp only [alookup]
      by_cases hk2 : a = k2
      · rw [if_pos hk2, if_pos hk2]
      · rw [if_neg hk2, if_neg hk2]
        exact ih

/-- Lookup distributes over list append. -/
theorem alookup_append (x : String) :
    ∀ (d tail : TermWeights),
    alookup x (d ++ tail) =
      match alookup x d with
      | some v => some v
      | none => alookup x tail := by
  intro d tail
  induction d with
  | nil => simp [alookup]
  | cons q rest ih =>
    obtain ⟨a, b⟩ := q
    simp only [List.cons_append, alookup]
    by_cases hx : a = x
    · rw [if_pos hx, if_pos hx]
    · rw [if_neg hx, if_neg hx]
      exact ih

/-- A key on which `any` fails is absent. -/
theorem alookup_eq_none_of_any_eq_false (k : String) :
    ∀ d : TermWeights, d.any (fun p => p.1 = k) = false →
    alookup k d = none := by
  intro d
  induction d with
  | nil => intro _; rfl
  | cons q rest ih =>
    intro h
    obtain ⟨a, b⟩ := q
    simp only [List.any_cons, Bool.or_eq_false_iff] at h
    have ha : ¬ (a = k) := by simpa using h.1
    simp only [alookup]
    rw [if_neg ha]
    exact ih h.2

/-- Reading back the key just written by `dSet`. -/
theorem dGet_dSet_self (d : TermWeights) (k : String) (v : ℚ) :
    dGet (dSet d k v) k = v := by
  unfold dGet dSet
  cases hany : d.any (fun p => p.1 = k) with
  | false =>
    simp only [hany, Bool.false_eq_true, if_false]
    rw [alookup_append, alookup_eq_none_of_any_eq_false k d hany]
    simp [alookup]
  | true =>
    simp only [hany, if_true]
    rw [alookup_map_replace k v d hany]
    rfl

/-- `dSet` leaves every other key unchanged. -/
theorem dGet_dSet_ne (d : TermWeights) (k v k2) (hne : k2 ≠ k) :
    dGet (dSet d k v) k2 = dGet d k2 := by
  unfold dGet dSet
  cases hany : d.any (fun p => p.1 = k) with
  | false =>
    simp only [hany, Bool.false_eq_true, if_false]
    rw [alookup_append]
    cases hl : alookup k2 d with
    | none =>
      simp only [alookup]
      rw [if_neg (Ne.symm hne)]
    | some b => rfl
  | true =>
    simp only [hany, if_true]
    rw [alookup_map_replace_ne k v k2 hne d]

/-- Reading back the key just incremented by `dAdd`. -/
theorem dGet_dAdd_self (d : TermWeights) (k : String) (v : ℚ) :
    dGet (dAdd d k v) k = dGet d k + v := by
  unfold dAdd
  exact dGet_dSet_self d k (dGet d k + v)

/-- `dAdd` leaves every other key unchanged. -/
theorem dGet_dAdd_ne (d : TermWeights) (k v k2) (hne : k2 ≠ k) :
    dGet (dAdd d k v) k2 = dGet d k2 := by
  unfold dAdd
  exact dGet_dSet_ne d k (dGet d k + v) k2 hne

/- ---------------------------------------------------------------- -/
/- Lemmas about the accumulation loop of _trackCore.                -/
/- ---------------------------------------------------------------- -/

/-- Effect of the surviving-neighbor fold on the accumulated weight of
a fixed term `s`: it adds exactly the rewards of the occurrences of
`s`. -/
theorem dGet_foldNeighbors (reward : ℚ → ℚ) (q1 s : String) :
    ∀ (ps : List (String × ℚ)) (st : TermWeights × LinkSet),
    dGet ((ps.foldl (fun st2 p =>
        (dAdd st2.1 p.1 (reward p.2), lAppend st2.2 q1 p)) st).1) s =
      dGet st.1 s + ((ps.filter (fun p => p.1 = s)).map
        (fun p => reward p.2)).sum := by
  intro ps
  induction ps with
  | nil => intro st; simp
  | cons p rest ih =>
    intro st
    simp only [List.foldl_cons]
    rw [ih]
    by_cases hp : p.1 = s
    · rw [List.filter_cons_of_pos (by simpa using hp)]
      simp only [List.map_cons, List.sum_cons]
      rw [show dAdd st.1 p.1 (reward p.2) = dAdd st.1 s (reward p.2) from by
        rw [hp], dGet_dAdd_self]
      ring
    · rw [List.filter_cons_of_neg (by simpa using hp)]
      rw [dGet_dAdd_ne st.1 p.1 (reward p.2) s (Ne.symm hp)]

/-- Effect of one seed-query iteration on the accumulated weight of
`s`: the seed's own weight is reset to `wordBoost` (not incremented),
then the surviving neighbors contribute their rewards. -/
theorem dGet_accumSeed (minSim wordBoost : ℚ) (reward : ℚ → ℚ) (s : String)
    (st : TermWeights × LinkSet) (q : String × List (String × ℚ)) :
    dGet ((accumSeed minSim wordBoost reward st q).1) s =
      (if q.1 = s then wordBoost else dGet st.1 s) +
        seedContrib minSim reward s q := by
  unfold accumSeed seedContrib
  rw [dGet_foldNeighbors]
  by_cases hq : q.1 = s
  · rw [if_pos hq, show dSet st.1 q.1 wordBoost = dSet st.1 s wordBoost from
      by rw [hq], dGet_dSet_self]
  · rw [if_neg hq, dGet_dSet_ne st.1 q.1 wordBoost s (Ne.symm hq)]

/-- Folding seed queries none of which is `s` itself only accumulates
neighbor rewards onto `s`. -/
theorem dGet_foldQueries_ne (minSim wordBoost : ℚ) (reward : ℚ → ℚ)
    (s : String) :
    ∀ (qs : List (String × List (String × ℚ))) (st : TermWeights × LinkSet),
    (∀ q ∈ qs, (q : String × List (String × ℚ)).1 ≠ s) →
    dGet ((qs.foldl (accumSeed minSim wordBoost reward) st).1) s =
      dGet st.1 s + (qs.map (seedContrib minSim reward s)).sum := by
  intro qs
  induction qs with
  | nil => intro st _; simp
  | cons q rest ih =>
    intro st hqs
    simp only [List.foldl_cons, List.map_cons, List.sum_cons]
    rw [ih (accumSeed minSim wordBoost reward st q)
        (fun q2 h2 => hqs q2 (by simp [h2])),
      dGet_accumSeed, if_neg (hqs q (by simp))]
    ring

/- ---------------------------------------------------------------- -/
/- C3: accumulated weight of a seed term.                           -/
/- ---------------------------------------------------------------- -/

/-- C3, counterexample: with seeds `a`, `b` where `a` lists the fellow
seed `b` as a surviving neighbor (and `b` is processed after `a` in the
sorted query order), the accumulated weight of `b` before top-N
selection is 1 (the `wordBoost` assignment overwrote the neighbor
reward), whereas the claim's formula `seedWeight + reward` gives 2. -/
theorem c3_counterexample :
    dGet (accumulate 0 1 (fun _ => 1)
      (_getRelatedTerms modelAB ["a", "b"] 10 none)).1 "b" = 1 ∧
    1 + seedContrib 0 (fun _ => 1) "b" ("a", [("b", 9)]) = 2 ∧
    (1 : ℚ) ≠ 2 := by
  refine ⟨by decide, ?_, by decide⟩
  simp [seedContrib, processNeighbors]
  norm_num

/-- C3, amended: because `dRelatedTerms[term] = wordBoost` is an
assignment rather than an increment, the accumulated weight of a seed
`s` (before top-N selection) equals `wordBoost` plus the rewards of the
occurrences of `s` as a surviving neighbor in `s`'s own query and in
the queries processed after it; rewards from queries processed before
`s` are discarded. -/
theorem c3_seed_weight (minSim wordBoost : ℚ) (reward : ℚ → ℚ)
    (pre post : List (String × List (String × ℚ))) (s : String)
    (ns : List (String × ℚ))
    (hpost : ∀ q ∈ post, (q : String × List (String × ℚ)).1 ≠ s) :
    dGet (accumulate minSim wordBoost reward (pre ++ (s, ns) :: post)).1 s =
      wordBoost + seedContrib minSim reward s (s, ns) +
        (post.map (seedContrib minSim reward s)).sum := by
  unfold accumulate
  rw [List.foldl_append, List.foldl_cons]
  rw [dGet_foldQueries_ne minSim wordBoost reward s post _ hpost]
  rw [dGet_accumSeed, if_pos rfl]

/-- C3, witness: the amended accumulation rule at a one-seed query
list. -/
theorem c3_seed_weight_witness :
    dGet (accumulate 0 1 (fun _ => 1) ([] ++ ("a", []) :: [])).1 "a" =
      1 + seedContrib 0 (fun _ => 1) "a" ("a", []) +
        (([] : List (String × List (String × ℚ))).map
          (seedContrib 0 (fun _ => 1) "a")).sum :=
  c3_seed_weight 0 1 (fun _ => 1) [] [] "a" [] (by simp)

/- ---------------------------------------------------------------- -/
/- Permutation lemmas for the stable sort.                          -/
/- ---------------------------------------------------------------- -/

/-- A stable insertion permutes to a plain cons. -/
theorem stableInsert_perm (le : α → α → Bool) (x : α) :
    ∀ l : List α, (stableInsert le x l).Perm (x :: l) := by
  intro l
  induction l with
  | nil => exact List.Perm.refl _
  | cons y ys ih =>
    rw [stableInsert]
    by_cases h : le y x = true
    · rw [if_pos h]
      exact (ih.cons y).trans (List.Perm.swap x y ys)
    · rw [if_neg h]

/-- The stable-sort fold permutes to the accumulator followed by the
remaining input. -/
theorem stableSort_foldl_perm (le : α → α → Bool) :
    ∀ (l acc : List α),
    (l.foldl (fun a x => stableInsert le x a) acc).Perm (acc ++ l) := by
  intro l
  induction l with
  | nil => intro acc; simp
  | cons x xs ih =>
    intro acc
    simp only [List.foldl_cons]
    refine (ih (stableInsert le x acc)).trans ?_
    refine (List.Perm.append_right xs (stableInsert_perm le x acc)).trans ?_
    exact List.perm_middle.symm

/-- Sorting permutes its input. -/
theorem stableSort_perm (le : α → α → Bool) (l : List α) :
    (stableSort le l).Perm l := by
  unfold stableSort
  simpa using stableSort_foldl_perm le l []

/- ---------------------------------------------------------------- -/
/- Lemmas about query workers and link keys.                        -/
/- ---------------------------------------------------------------- -/

/-- A worker always reports under its own seed term. -/
theorem getRelatedTermsThread_fst (model : W2VModel) (t : String)
    (maxRelatedTerms : Nat) (cf : CleaningFunction) :
    (_getRelatedTermsThread model t maxRelatedTerms cf).1 = t := by
  unfold _getRelatedTermsThread
  cases model.most_similar t maxRelatedTerms with
  | none => rfl
  | some ts => cases cf <;> rfl

/-- The keys of `lAppend`: unchanged when the key exists, extended by
the key otherwise. -/
theorem map_fst_lAppend (links : LinkSet) (k : String) (v : String × ℚ) :
    (lAppend links k v).map (fun p => p.1) =
      if links.any (fun p => p.1 = k) then links.map (fun p => p.1)
      else links.map (fun p => p.1) ++ [k] := by
  unfold lAppend
  cases hany : links.any (fun p => p.1 = k) with
  | false => simp
  | true =>
    simp only [if_true, List.map_map]
    refine List.map_congr_left ?_
    intro p _
    by_cases hp : p.1 = k
    · simp [hp]
    · simp [hp]

/-- `lAppend` never removes a link key. -/
theorem mem_keys_lAppend (links : LinkSet) (k : String) (v : String × ℚ)
    (x : String) (hx : x ∈ links.map (fun p => p.1)) :
    x ∈ (lAppend links k v).map (fun p => p.1) := by
  rw [map_fst_lAppend]
  by_cases h : links.any (fun p => p.1 = k) = true
  · rw [if_pos h]; exact hx
  · rw [if_neg h]; exact List.mem_append_left _ hx

/-- `lAppend` puts its key among the link keys. -/
theorem mem_keys_lAppend_self (links : LinkSet) (k : String)
    (v : String × ℚ) : k ∈ (lAppend links k v).map (fun p => p.1) := by
  rw [map_fst_lAppend]
  cases hany : links.any (fun p => p.1 = k) with
  | false => simp
  | true =>
    simp only [if_true]
    rcases List.any_eq_true.mp hany with ⟨p, hp, hpk⟩
    have : p.1 = k := by simpa using hpk
    exact this ▸ List.mem_map_of_mem (fun p => p.1) hp

/-- The surviving-neighbor fold never removes a link key. -/
theorem mem_keys_foldNeighbors (reward : ℚ → ℚ) (q1 : String) :
    ∀ (ps : List (String × ℚ)) (st : TermWeights × LinkSet) (x : String),
    x ∈ st.2.map (fun p => p.1) →
    x ∈ ((ps.foldl (fun st2 p =>
      (dAdd st2.1 p.1 (reward p.2), lAppend st2.2 q1 p)) st).2).map
        (fun p => p.1) := by
  intro ps
  induction ps with
  | nil => intro st x hx; exact hx
  | cons p rest ih =>
    intro st x hx
    simp only [List.foldl_cons]
    exact ih _ x (mem_keys_lAppend st.2 q1 p x hx)

/-- Each processed seed query adds its seed to the link keys and keeps
the existing ones. -/
theorem mem_keys_accumSeed (minSim wordBoost : ℚ) (reward : ℚ → ℚ)
    (st : TermWeights × LinkSet) (q : String × List (String × ℚ))
    (x : String) (hx : x = q.1 ∨ x ∈ st.2.map (fun p => p.1)) :
    x ∈ ((accumSeed minSim wordBoost reward st q).2).map (fun p => p.1) := by
  unfold accumSeed
  refine mem_keys_foldNeighbors reward q.1 _ _ x ?_
  show x ∈ (lAppend st.2 q.1 (q.1, 0)).map (fun p => p.1)
  rcases hx with hx | hx
  · rw [hx]
    exact mem_keys_lAppend_self st.2 q.1 (q.1, 0)
  · exact mem_keys_lAppend st.2 q.1 (q.1, 0) x hx

/-- Every processed seed ends up among the link keys. -/
theorem mem_keys_foldQueries (minSim wordBoost : ℚ) (reward : ℚ → ℚ)
    (u : String) :
    ∀ (qs : List (String × List (String × ℚ))) (st : TermWeights × LinkSet),
    ((∃ q ∈ qs, (q : String × List (String × ℚ)).1 = u) ∨
      u ∈ st.2.map (fun p => p.1)) →
    u ∈ ((qs.foldl (accumSeed minSim wordBoost reward) st).2).map
      (fun p => p.1) := by
  intro qs
  induction qs with
  | nil =>
    intro st h
    rcases h with ⟨q, hq, _⟩ | h
    · exact absurd hq (by simp)
    · exact h
  | cons q rest ih =>
    intro st h
    simp only [List.foldl_cons]
    rcases h with ⟨q2, hq2, hq2u⟩ | h
    · rcases List.mem_cons.mp hq2 with h1 | h1
      · subst h1
        exact ih _ (Or.inr (mem_keys_accumSeed minSim wordBoost reward st q2 u
          (Or.inl hq2u.symm)))
      · exact ih _ (Or.inl ⟨q2, h1, hq2u⟩)
    · exact ih _ (Or.inr (mem_keys_accumSeed minSim wordBoost reward st q u
        (Or.inr h)))

/- ---------------------------------------------------------------- -/
/- C9: unknown seed terms are isolated soft failures.               -/
/- ---------------------------------------------------------------- -/

/-- C9, confirmed: a seed unknown to the model (its `most_similar`
raises `KeyError`) is reported with an empty neighbor list; the query
list is, up to order, the unknown seed's empty entry plus exactly the
queries of the remaining seeds (no other seed's result is affected,
and nothing errors); and the unknown seed still appears among the keys
of the links mapping returned by `_trackCore`. -/
theorem c9_unknown_seed (model : W2VModel) (seeds : List String) (u : String)
    (maxTerms maxRelatedTerms : Nat) (minSim wordBoost : ℚ) (reward : ℚ → ℚ)
    (cf : CleaningFunction)
    (hu : model.most_similar u maxRelatedTerms = none) (hmem : u ∈ seeds) :
    (∀ p ∈ _getRelatedTerms model seeds maxRelatedTerms cf,
        (p : String × List (String × ℚ)).1 = u → p.2 = []) ∧
    (_getRelatedTerms model seeds maxRelatedTerms cf).Perm
      ((u, []) :: _getRelatedTerms model (seeds.erase u) maxRelatedTerms cf) ∧
    u ∈ ((_trackCore model seeds maxTerms maxRelatedTerms minSim wordBoost
      reward cf).2.map (fun p => p.1)) := by
  have hthread : _getRelatedTermsThread model u maxRelatedTerms cf = (u, []) := by
    unfold _getRelatedTermsThread
    rw [hu]
  refine ⟨?_, ?_, ?_⟩
  · intro p hp hpu
    have hp2 : p ∈ (seeds.map (fun t =>
        _getRelatedTermsThread model t maxRelatedTerms cf)) :=
      ((stableSort_perm _ _).mem_iff).mp hp
    rcases List.mem_map.mp hp2 with ⟨t, _, hteq⟩
    have ht : t = u := by
      rw [← hpu, ← hteq, getRelatedTermsThread_fst]
    subst ht
    rw [← hteq, hthread]
  · refine (stableSort_perm _ _).trans ?_
    have hperm : seeds.Perm (u :: seeds.erase u) := List.perm_cons_erase hmem
    refine (hperm.map (fun t =>
      _getRelatedTermsThread model t maxRelatedTerms cf)).trans ?_
    simp only [List.map_cons, hthread]
    exact ((stableSort_perm (fun a b => strLe a.1 b.1)
      ((seeds.erase u).map (fun t =>
        _getRelatedTermsThread model t maxRelatedTerms cf))).symm).cons (u, [])
  · unfold _trackCore
    simp only [List.map_map]
    have hqueries : ∃ q ∈ _getRelatedTerms model seeds maxRelatedTerms cf,
        (q : String × List (String × ℚ)).1 = u := by
      refine ⟨(u, []), ?_, rfl⟩
      have hm : (u, []) ∈ (seeds.map (fun t =>
          _getRelatedTermsThread model t maxRelatedTerms cf)) := by
        rw [← hthread]
        exact List.mem_map_of_mem _ hmem
      exact ((stableSort_perm (fun a b => strLe a.1 b.1) _).mem_iff).mpr hm
    have := mem_keys_foldQueries minSim wordBoost reward u
      (_getRelatedTerms model seeds maxRelatedTerms cf) ([], [])
      (Or.inl hqueries)
    simpa [accumulate] using this

/-- C9, witness: a single unknown seed against the all-unknown
model. -/
theorem c9_unknown_seed_witness :
    (∀ p ∈ _getRelatedTerms modelAllUnknown ["u"] 10 none,
        (p : String × List (String × ℚ)).1 = "u" → p.2 = []) ∧
    (_getRelatedTerms modelAllUnknown ["u"] 10 none).Perm
      (("u", []) :: _getRelatedTerms modelAllUnknown
        (["u"].erase "u") 10 none) ∧
    "u" ∈ ((_trackCore modelAllUnknown ["u"] 10 10 0 1
      (fun _ => 1) none).2.map (fun p => p.1)) :=
  c9_unknown_seed modelAllUnknown ["u"] "u" 10 10 0 1 (fun _ => 1) none rfl
    (by decide)

/- ---------------------------------------------------------------- -/
/- C4: unsupported algorithm handling.                              -/
/- ---------------------------------------------------------------- -/

/-- Unfolding equation for `trackClouds`. -/
theorem trackClouds_eq (models : List (String × W2VModel))
    (seedTerms : List String) (maxTerms maxRelatedTerms : Nat)
    (startKey endKey : Option String) (minSim wordBoost : ℚ)
    (forwards sumSimilarity : Bool) (algorithm : String)
    (cf : CleaningFunction) :
    trackClouds models seedTerms maxTerms maxRelatedTerms startKey endKey
      minSim wordBoost forwards sumSimilarity algorithm cf =
      match selectKeys (models.map (fun p => p.1)) startKey endKey with
      | Except.error e => Except.error e
      | Except.ok selected =>
        match trackLoop models maxTerms maxRelatedTerms minSim wordBoost
            sumSimilarity algorithm cf
            (if forwards then selected else selected.reverse) seedTerms with
        | Except.error e => Except.error e
        | Except.ok results =>
          Except.ok
            (results.foldl (fun d r => sdInsert r.1 r.2.1 d) [],
             results.foldl (fun d r => sdInsert r.1 r.2.2 d) []) := rfl

/-- `trackClouds` propagates a range-selection error. -/
theorem trackClouds_error_select (models : List (String × W2VModel))
    (seedTerms : List String) (maxTerms maxRelatedTerms : Nat)
    (startKey endKey : Option String) (minSim wordBoost : ℚ)
    (forwards sumSimilarity : Bool) (algorithm : String)
    (cf : CleaningFunction) (e : String)
    (hsel : selectKeys (models.map (fun p => p.1)) startKey endKey =
      Except.error e) :
    trackClouds models seedTerms maxTerms maxRelatedTerms startKey endKey
      minSim wordBoost forwards sumSimilarity algorithm cf =
      Except.error e := by
  rw [trackClouds_eq, hsel]

/-- `trackClouds` after a successful range selection. -/
theorem trackClouds_ok_select (models : List (String × W2VModel))
    (seedTerms : List String) (maxTerms maxRelatedTerms : Nat)
    (startKey endKey : Option String) (minSim wordBoost : ℚ)
    (forwards sumSimilarity : Bool) (algorithm : String)
    (cf : CleaningFunction) (ks : List String)
    (hsel : selectKeys (models.map (fun p => p.1)) startKey endKey =
      Except.ok ks) :
    trackClouds models seedTerms maxTerms maxRelatedTerms startKey endKey
      minSim wordBoost forwards sumSimilarity algorithm cf =
      match trackLoop models maxTerms maxRelatedTerms minSim wordBoost
          sumSimilarity algorithm cf
          (if forwards then ks else ks.reverse) seedTerms with
      | Except.error e => Except.error e
      | Except.ok results =>
        Except.ok
          (results.foldl (fun d r => sdInsert r.1 r.2.1 d) [],
           results.foldl (fun d r => sdInsert r.1 r.2.2 d) []) := by
  rw [trackClouds_eq, hsel]

/-- The tracking loop with an unsupported algorithm fails on the first
processed period. -/
theorem trackLoop_bad_algorithm (models : List (String × W2VModel))
    (maxTerms maxRelatedTerms : Nat) (minSim wordBoost : ℚ)
    (sumSimilarity : Bool) (algorithm : String) (cf : CleaningFunction)
    (h1 : algorithm ≠ "adaptive") (h2 : algorithm ≠ "non-adaptive")
    (k : String) (ks seeds : List String) :
    ∃ e, trackLoop models maxTerms maxRelatedTerms minSim wordBoost
      sumSimilarity algorithm cf (k :: ks) seeds = Except.error e := by
  rw [trackLoop]
  cases models.lookup k with
  | none => exact ⟨_, rfl⟩
  | some m =>
    refine ⟨"Algorithm not supported: " ++ algorithm, ?_⟩
    simp only [if_neg h1, if_neg h2]

/-- C4, counterexample: with an unsupported algorithm name but a
start/end selection describing an empty range, `trackClouds` silently
returns an empty result instead of raising. -/
theorem c4_counterexample :
    trackClouds twoPeriodModels ["x"] 10 10 (some "1990_1999")
      (some "1990_1999") 0 1 true false "bogus" none = Except.ok ([], []) ∧
    ("bogus" : String) ≠ "adaptive" ∧ ("bogus" : String) ≠ "non-adaptive" :=
  ⟨rfl, by decide, by decide⟩

/-- C4, amended: an unsupported algorithm raises on the first processed
period, so `trackClouds` errors exactly when the selected range is
non-empty (or the range selection itself fails); when the selection
succeeds with an empty range it returns an empty result without
error. -/
theorem c4_algorithm_error (models : List (String × W2VModel))
    (seedTerms : List String) (maxTerms maxRelatedTerms : Nat)
    (startKey endKey : Option String) (minSim wordBoost : ℚ)
    (forwards sumSimilarity : Bool) (algorithm : String)
    (cf : CleaningFunction)
    (h1 : algorithm ≠ "adaptive") (h2 : algorithm ≠ "non-adaptive") :
    ((∃ e, trackClouds models seedTerms maxTerms maxRelatedTerms startKey
        endKey minSim wordBoost forwards sumSimilarity algorithm cf =
          Except.error e) ↔
      selectKeys (models.map (fun p => p.1)) startKey endKey ≠
        Except.ok []) ∧
    (∀ r, trackClouds models seedTerms maxTerms maxRelatedTerms startKey
        endKey minSim wordBoost forwards sumSimilarity algorithm cf =
          Except.ok r → r = ([], [])) := by
  cases hsel : selectKeys (models.map (fun p => p.1)) startKey endKey with
  | error e =>
    have hclouds := trackClouds_error_select models seedTerms maxTerms
      maxRelatedTerms startKey endKey minSim wordBoost forwards sumSimilarity
      algorithm cf e hsel
    refine ⟨⟨fun _ => by simp [hsel], fun _ => ⟨e, hclouds⟩⟩, ?_⟩
    intro r hr
    rw [hclouds] at hr
    exact absurd hr (by simp)
  | ok ks =>
    cases ks with
    | nil =>
      have hclouds : trackClouds models seedTerms maxTerms maxRelatedTerms
          startKey endKey minSim wordBoost forwards sumSimilarity algorithm
          cf = Except.ok ([], []) := by
        rw [trackClouds_ok_select models seedTerms maxTerms maxRelatedTerms
          startKey endKey minSim wordBoost forwards sumSimilarity algorithm
          cf [] hsel]
        cases forwards <;> rfl
      refine ⟨⟨fun he => ?_, fun hne => absurd rfl hne⟩, ?_⟩
      · obtain ⟨e, he⟩ := he
        rw [hclouds] at he
        exact absurd he (by simp)
      · intro r hr
        rw [hclouds] at hr
        exact (Except.ok.inj hr).symm
    | cons k rest =>
      have hne : (if forwards then k :: rest else (k :: rest).reverse) ≠ [] := by
        cases forwards <;> simp
      obtain ⟨k2, ks2, hk⟩ := List.exists_cons_of_ne_nil hne
      obtain ⟨e, he⟩ := trackLoop_bad_algorithm models maxTerms maxRelatedTerms
        minSim wordBoost sumSimilarity algorithm cf h1 h2 k2 ks2 seedTerms
      have hclouds : trackClouds models seedTerms maxTerms maxRelatedTerms
          startKey endKey minSim wordBoost forwards sumSimilarity algorithm
          cf = Except.error e := by
        rw [trackClouds_ok_select models seedTerms maxTerms maxRelatedTerms
          startKey endKey minSim wordBoost forwards sumSimilarity algorithm
          cf (k :: rest) hsel, hk, he]
      refine ⟨⟨fun _ => by simp, fun _ => ⟨e, hclouds⟩⟩, ?_⟩
      intro r hr
      rw [hclouds] at hr
      exact absurd hr (by simp)

/-- C4, witness: the amended behaviour at a concrete empty-range
invocation with an unsupported algorithm name. -/
theorem c4_algorithm_error_witness :
    ((∃ e, trackClouds twoPeriodModels ["x"] 10 10 (some "1990_1999")
        (some "1990_1999") 0 1 true false "bogus" none =
          Except.error e) ↔
      selectKeys (twoPeriodModels.map (fun p => p.1)) (some "1990_1999")
        (some "1990_1999") ≠ Except.ok []) ∧
    (∀ r, trackClouds twoPeriodModels ["x"] 10 10 (some "1990_1999")
        (some "1990_1999") 0 1 true false "bogus" none =
          Except.ok r → r = ([], [])) :=
  c4_algorithm_error twoPeriodModels ["x"] 10 10 (some "1990_1999")
    (some "1990_1999") 0 1 true false "bogus" none (by decide) (by decide)

/- ---------------------------------------------------------------- -/
/- Order lemmas for the key comparison.                             -/
/- ---------------------------------------------------------------- -/

/-- Characters with equal code points are equal. -/
theorem char_eq_of_toNat_eq {a b : Char} (h : a.toNat = b.toNat) : a = b :=
  Char.ext (UInt32.ext h)

/-- Strings with equal character lists are equal. -/
theorem string_eq_of_toList_eq {a b : String} (h : a.toList = b.toList) :
    a = b := by
  cases a
  cases b
  simp only [String.toList] at h
  rw [h]

theorem charListLe_refl : ∀ a : List Char, charListLe a a = true := by
  intro a
  induction a with
  | nil => rfl
  | cons x xs ih =>
    rw [charListLe, if_pos rfl]
    exact ih

theorem charListLe_total : ∀ a b : List Char,
    charListLe a b = true ∨ charListLe b a = true := by
  intro a
  induction a with
  | nil => intro b; left; rfl
  | cons x xs ih =>
    intro b
    cases b with
    | nil => right; rfl
    | cons y ys =>
      by_cases hxy : x.toNat = y.toNat
      · rw [charListLe, if_pos hxy, charListLe, if_pos hxy.symm]
        exact ih ys
      · rw [charListLe, if_neg hxy, charListLe, if_neg (Ne.symm hxy)]
        rcases Nat.lt_or_ge x.toNat y.toNat with h | h
        · left; exact decide_eq_true h
        · right
          exact decide_eq_true (by omega)

theorem charListLe_trans : ∀ a b c : List Char,
    charListLe a b = true → charListLe b c = true →
    charListLe a c = true := by
  intro a
  induction a with
  | nil => intro b c _ _; rfl
  | cons x xs ih =>
    intro b c h1 h2
    cases b with
    | nil => simp [charListLe] at h1
    | cons y ys =>
      cases c with
      | nil => simp [charListLe] at h2
      | cons z zs =>
        rw [charListLe] at h1 h2 ⊢
        by_cases hxy : x.toNat = y.toNat
        · rw [if_pos hxy] at h1
          by_cases hyz : y.toNat = z.toNat
          · rw [if_pos hyz] at h2
            rw [if_pos (hxy.trans hyz)]
            exact ih ys zs h1 h2
          · rw [if_neg hyz] at h2
            have hlt : y.toNat < z.toNat := of_decide_eq_true h2
            rw [if_neg (by omega)]
            exact decide_eq_true (by omega)
        · rw [if_neg hxy] at h1
          have hlt1 : x.toNat < y.toNat := of_decide_eq_true h1
          have hle2 : y.toNat ≤ z.toNat := by
            by_cases hyz : y.toNat = z.toNat
            · omega
            · rw [if_neg hyz] at h2
              have := of_decide_eq_true h2
              omega
          rw [if_neg (by omega)]
          exact decide_eq_true (by omega)

theorem charListLe_antisymm : ∀ a b : List Char,
    charListLe a b = true → charListLe b a = true → a = b := by
  intro a
  induction a with
  | nil =>
    intro b _ h2
    cases b with
    | nil => rfl
    | cons y ys => simp [charListLe] at h2
  | cons x xs ih =>
    intro b h1 h2
    cases b with
    | nil => simp [charListLe] at h1
    | cons y ys =>
      rw [charListLe] at h1 h2
      by_cases hxy : x.toNat = y.toNat
      · rw [if_pos hxy] at h1
        rw [if_pos hxy.symm] at h2
        rw [char_eq_of_toNat_eq hxy, ih ys h1 h2]
      · rw [if_neg hxy] at h1
        rw [if_neg (Ne.symm hxy)] at h2
        have l1 : x.toNat < y.toNat := of_decide_eq_true h1
        have l2 : y.toNat < x.toNat := of_decide_eq_true h2
        omega

theorem strLe_refl (a : String) : strLe a a = true := charListLe_refl _

theorem strLe_total (a b : String) :
    strLe a b = true ∨ strLe b a = true := charListLe_total _ _

theorem strLe_trans {a b c : String} (h1 : strLe a b = true)
    (h2 : strLe b c = true) : strLe a c = true :=
  charListLe_trans _ _ _ h1 h2

theorem strLe_antisymm {a b : String} (h1 : strLe a b = true)
    (h2 : strLe b a = true) : a = b :=
  string_eq_of_toList_eq (charListLe_antisymm _ _ h1 h2)

/- ---------------------------------------------------------------- -/
/- Index slicing on sorted key lists.                               -/
/- ---------------------------------------------------------------- -/

/-- On a sorted key list, dropping everything before the first
occurrence of `sk` keeps exactly the keys at or after `sk`. -/
theorem drop_indexOf_eq_filter :
    ∀ l : List String, l.Pairwise (fun a b => strLe a b = true) →
    ∀ sk ∈ l, l.drop (l.indexOf sk) = l.filter (fun k => strLe sk k) := by
  intro l
  induction l with
  | nil => intro _ sk hsk; simp at hsk
  | cons x xs ih =>
    intro hsorted sk hsk
    by_cases hx : x = sk
    · subst hx
      rw [List.indexOf_cons_self, List.drop_zero,
        List.filter_cons_of_pos (by simpa using strLe_refl x)]
      congr 1
      exact (List.filter_eq_self.mpr (fun y hy => by
        simpa using (List.pairwise_cons.mp hsorted).1 y hy)).symm
    · have hskxs : sk ∈ xs := by
        rcases List.mem_cons.mp hsk with h | h
        · exact absurd h.symm hx
        · exact h
      have hxk : strLe x sk = true := (List.pairwise_cons.mp hsorted).1 sk hskxs
      have hx2 : strLe sk x = false := by
        cases hcase : strLe sk x
        · rfl
        · exact absurd (strLe_antisymm hcase hxk).symm hx
      rw [List.indexOf_cons_ne xs hx, List.drop_succ_cons,
        List.filter_cons_of_neg (by simp [hx2])]
      exact ih (List.pairwise_cons.mp hsorted).2 sk hskxs

/-- On a sorted key list, taking up to the first occurrence of `ek`
keeps exactly the keys strictly before `ek`. -/
theorem take_indexOf_eq_filter :
    ∀ l : List String, l.Pairwise (fun a b => strLe a b = true) →
    ∀ ek ∈ l, l.take (l.indexOf ek) = l.filter (fun k => !(strLe ek k)) := by
  intro l
  induction l with
  | nil => intro _ ek hek; simp at hek
  | cons x xs ih =>
    intro hsorted ek hek
    by_cases hx : x = ek
    · subst hx
      rw [List.indexOf_cons_self, List.take_zero, eq_comm]
      refine List.filter_eq_nil_iff.mpr ?_
      intro y hy
      rcases List.mem_cons.mp hy with h | h
      · subst h; simp [strLe_refl]
      · have : strLe x y = true := (List.pairwise_cons.mp hsorted).1 y h
        simp [this]
    · have hekxs : ek ∈ xs := by
        rcases List.mem_cons.mp hek with h | h
        · exact absurd h.symm hx
        · exact h
      have hxk : strLe x ek = true := (List.pairwise_cons.mp hsorted).1 ek hekxs
      have hx2 : strLe ek x = false := by
        cases hcase : strLe ek x
        · rfl
        · exact absurd (strLe_antisymm hxk hcase) hx
      rw [List.indexOf_cons_ne xs hx, List.take_succ_cons,
        List.filter_cons_of_pos (by simp [hx2])]
      rw [ih (List.pairwise_cons.mp hsorted).2 ek hekxs]

/-- What a successful `startKey` slice returns. -/
theorem selectStart_ok (keys : List String)
    (hsorted : keys.Pairwise (fun a b => strLe a b = true))
    (startKey : Option String) (l : List String)
    (h : selectStart keys startKey = Except.ok l) :
    l = keys.filter (fun k =>
      match startKey with
      | none => true
      | some sk => strLe sk k) := by
  cases startKey with
  | none =>
    simp only [selectStart] at h
    obtain rfl := Except.ok.inj h
    simp
  | some sk =>
    simp only [selectStart] at h
    by_cases hmem : sk ∈ keys
    · rw [if_pos hmem] at h
      obtain rfl := Except.ok.inj h
      exact drop_indexOf_eq_filter keys hsorted sk hmem
    · rw [if_neg hmem] at h
      exact absurd h (by simp)

/-- What a successful `endKey` slice returns. -/
theorem selectEnd_ok (keys1 : List String)
    (hsorted : keys1.Pairwise (fun a b => strLe a b = true))
    (endKey : Option String) (l : List String)
    (h : selectEnd keys1 endKey = Except.ok l) :
    l = keys1.filter (fun k =>
      match endKey with
      | none => true
      | some ek => !(strLe ek k)) := by
  cases endKey with
  | none =>
    simp only [selectEnd] at h
    obtain rfl := Except.ok.inj h
    simp
  | some ek =>
    simp only [selectEnd] at h
    by_cases hek : ek ∈ keys1
    · rw [if_pos hek] at h
      obtain rfl := Except.ok.inj h
      exact take_indexOf_eq_filter keys1 hsorted ek hek
    · rw [if_neg hek] at h
      exact absurd h (by simp)

/-- A successful range selection is exactly the half-open chronological
interval `[startKey, endKey)`. -/
theorem selectKeys_ok_spec (keys : List String)
    (hsorted : keys.Pairwise (fun a b => strLe a b = true))
    (startKey endKey : Option String) (ks : List String)
    (hok : selectKeys keys startKey endKey = Except.ok ks) :
    ks = specSelect keys startKey endKey := by
  unfold selectKeys at hok
  cases h1 : selectStart keys startKey with
  | error e =>
    rw [h1] at hok
    exact absurd hok (by simp)
  | ok keys1 =>
    rw [h1] at hok
    have hkeys1 := selectStart_ok keys hsorted startKey keys1 h1
    have hs1 : keys1.Pairwise (fun a b => strLe a b = true) := by
      rw [hkeys1]
      exact hsorted.filter _
    have hks := selectEnd_ok keys1 hs1 endKey ks hok
    rw [hks, hkeys1, specSelect, List.filter_filter]
    refine List.filter_congr ?_
    intro k _
    cases startKey <;> cases endKey <;> simp [Bool.and_comm]

/-- Exactly when the range selection raises `KeyError`: the start key
is absent, or the end key is absent from the part of the list at or
after the start key (so an end key chronologically before the start
key raises even when it is loaded). -/
theorem selectKeys_error_iff (keys : List String)
    (hsorted : keys.Pairwise (fun a b => strLe a b = true))
    (startKey endKey : Option String) :
    (∃ e, selectKeys keys startKey endKey = Except.error e) ↔
      ((∃ sk, startKey = some sk ∧ sk ∉ keys) ∨
       (∃ ek, endKey = some ek ∧ (ek ∉ keys ∨
         (∃ sk, startKey = some sk ∧ strLe sk ek = false)))) := by
  cases startKey with
  | none =>
    have hstart : selectStart keys none = Except.ok keys := rfl
    unfold selectKeys
    rw [hstart]
    cases endKey with
    | none => simp [selectEnd]
    | some ek =>
      by_cases hek : ek ∈ keys
      · simp only [selectEnd, if_pos hek]
        constructor
        · rintro ⟨e, he⟩
          exact absurd he (by simp)
        · rintro (⟨sk, hsk, _⟩ | ⟨ek2, hek2, hcond⟩)
          · exact absurd hsk (by simp)
          · obtain rfl : ek = ek2 := Option.some.inj hek2
            rcases hcond with h | ⟨sk, hsk, _⟩
            · exact absurd hek h
            · exact absurd hsk (by simp)
      · simp only [selectEnd, if_neg hek]
        exact ⟨fun _ => Or.inr ⟨ek, rfl, Or.inl hek⟩, fun _ => ⟨_, rfl⟩⟩
  | some sk =>
    by_cases hsk : sk ∈ keys
    · have hstart : selectStart keys (some sk) =
          Except.ok (keys.drop (keys.indexOf sk)) := by
        simp [selectStart, if_pos hsk]
      have hdrop : keys.drop (keys.indexOf sk) =
          keys.filter (fun k => strLe sk k) :=
        drop_indexOf_eq_filter keys hsorted sk hsk
      unfold selectKeys
      rw [hstart, hdrop]
      cases endKey with
      | none =>
        constructor
        · rintro ⟨e, he⟩
          exact absurd he (by simp [selectEnd])
        · rintro (⟨sk2, hsk2, hmem⟩ | ⟨ek, hek, _⟩)
          · obtain rfl : sk = sk2 := Option.some.inj hsk2
            exact absurd hsk hmem
          · exact absurd hek (by simp)
      | some ek =>
        by_cases hek : ek ∈ keys.filter (fun k => strLe sk k)
        · simp only [selectEnd, if_pos hek]
          rw [List.mem_filter] at hek
          constructor
          · rintro ⟨e, he⟩
            exact absurd he (by simp)
          · rintro (⟨sk2, hsk2, hmem⟩ | ⟨ek2, hek2, hcond⟩)
            · obtain rfl : sk = sk2 := Option.some.inj hsk2
              exact absurd hsk hmem
            · obtain rfl : ek = ek2 := Option.some.inj hek2
              rcases hcond with h | ⟨sk2, hsk2, hlt⟩
              · exact absurd hek.1 h
              · obtain rfl : sk = sk2 := Option.some.inj hsk2
                rw [hek.2] at hlt
                exact Bool.noConfusion hlt
        · simp only [selectEnd, if_neg hek]
          refine ⟨fun _ => ?_, fun _ => ⟨_, rfl⟩⟩
          refine Or.inr ⟨ek, rfl, ?_⟩
          rw [List.mem_filter] at hek
          by_cases hekk : ek ∈ keys
          · refine Or.inr ⟨sk, rfl, ?_⟩
            cases hcase : strLe sk ek
            · rfl
            · exact absurd ⟨hekk, hcase⟩ hek
          · exact Or.inl hekk
    · have hstart : ∃ e, selectStart keys (some sk) = Except.error e :=
        ⟨"Key " ++ sk ++ " not a valid model index",
          by simp [selectStart, if_neg hsk]⟩
      obtain ⟨e, he⟩ := hstart
      unfold selectKeys
      rw [he]
      exact ⟨fun _ => Or.inl ⟨sk, rfl, hsk⟩, fun _ => ⟨e, rfl⟩⟩

/-- Dict lookup on the monitor's models succeeds for every key of the
key list. -/
theorem lookup_models_isSome (models : List (String × W2VModel)) :
    ∀ k, k ∈ models.map (fun p => p.1) → ∃ m, models.lookup k = some m := by
  induction models with
  | nil => intro k hk; simp at hk
  | cons q rest ih =>
    intro k hk
    obtain ⟨a, b⟩ := q
    by_cases hka : k = a
    · subst hka
      exact ⟨b, by simp [List.lookup]⟩
    · simp only [List.map_cons, List.mem_cons] at hk
      rcases hk with hk | hk
      · exact absurd hk hka
      · obtain ⟨m, hm⟩ := ih k hk
        refine ⟨m, ?_⟩
        simp only [List.lookup, show (k == a) = false from by simp [hka]]
        exact hm

/-- Unfolding equation: one adaptive step of the tracking loop. -/
theorem trackLoop_adaptive_cons (models : List (String × W2VModel))
    (maxTerms maxRelatedTerms : Nat) (minSim wordBoost : ℚ)
    (sumSimilarity : Bool) (cf : CleaningFunction) (k : String)
    (rest seeds : List String) (m : W2VModel)
    (hm : models.lookup k = some m) :
    trackLoop models maxTerms maxRelatedTerms minSim wordBoost sumSimilarity
      "adaptive" cf (k :: rest) seeds =
      match trackLoop models maxTerms maxRelatedTerms minSim wordBoost
          sumSimilarity "adaptive" cf rest
          (_trackInlink m seeds maxTerms maxRelatedTerms minSim wordBoost
            sumSimilarity cf).2.2 with
      | Except.error e => Except.error e
      | Except.ok rs =>
        Except.ok ((k,
          (_trackInlink m seeds maxTerms maxRelatedTerms minSim wordBoost
            sumSimilarity cf).1,
          (_trackInlink m seeds maxTerms maxRelatedTerms minSim wordBoost
            sumSimilarity cf).2.1) :: rs) := by
  rw [trackLoop, hm]
  rfl

/-- Unfolding equation: one non-adaptive step of the tracking loop. -/
theorem trackLoop_nonadaptive_cons (models : List (String × W2VModel))
    (maxTerms maxRelatedTerms : Nat) (minSim wordBoost : ℚ)
    (sumSimilarity : Bool) (cf : CleaningFunction) (k : String)
    (rest seeds : List String) (m : W2VModel)
    (hm : models.lookup k = some m) :
    trackLoop models maxTerms maxRelatedTerms minSim wordBoost sumSimilarity
      "non-adaptive" cf (k :: rest) seeds =
      match trackLoop models maxTerms maxRelatedTerms minSim wordBoost
          sumSimilarity "non-adaptive" cf rest seeds with
      | Except.error e => Except.error e
      | Except.ok rs =>
        Except.ok ((k,
          (_trackCore m seeds maxTerms maxRelatedTerms minSim 1
            (fun _ => 1) cf).1,
          (_trackCore m seeds maxTerms maxRelatedTerms minSim 1
            (fun _ => 1) cf).2) :: rs) := by
  rw [trackLoop, hm]
  rfl

/-- With a supported algorithm and all keys loadable, the tracking
loop never fails. -/
theorem trackLoop_ok_of_valid (models : List (String × W2VModel))
    (maxTerms maxRelatedTerms : Nat) (minSim wordBoost : ℚ)
    (sumSimilarity : Bool) (algorithm : String) (cf : CleaningFunction)
    (halg : algorithm = "adaptive" ∨ algorithm = "non-adaptive") :
    ∀ (ks seeds : List String),
    (∀ k ∈ ks, k ∈ models.map (fun p => p.1)) →
    ∃ r, trackLoop models maxTerms maxRelatedTerms minSim wordBoost
      sumSimilarity algorithm cf ks seeds = Except.ok r := by
  intro ks
  induction ks with
  | nil => intro seeds _; exact ⟨[], rfl⟩
  | cons k rest ih =>
    intro seeds hks
    obtain ⟨m, hm⟩ := lookup_models_isSome models k (hks k (by simp))
    have hrest : ∀ k2 ∈ rest, k2 ∈ models.map (fun p => p.1) :=
      fun k2 h2 => hks k2 (by simp [h2])
    rcases halg with h | h <;> subst h
    · obtain ⟨r, hr⟩ := ih (_trackInlink m seeds maxTerms maxRelatedTerms
        minSim wordBoost sumSimilarity cf).2.2 hrest
      refine ⟨(k, (_trackInlink m seeds maxTerms maxRelatedTerms minSim
        wordBoost sumSimilarity cf).1,
        (_trackInlink m seeds maxTerms maxRelatedTerms minSim wordBoost
          sumSimilarity cf).2.1) :: r, ?_⟩
      rw [trackLoop_adaptive_cons models maxTerms maxRelatedTerms minSim
        wordBoost sumSimilarity cf k rest seeds m hm, hr]
    · obtain ⟨r, hr⟩ := ih seeds hrest
      refine ⟨(k, (_trackCore m seeds maxTerms maxRelatedTerms minSim 1
        (fun _ => 1) cf).1,
        (_trackCore m seeds maxTerms maxRelatedTerms minSim 1
          (fun _ => 1) cf).2) :: r, ?_⟩
      rw [trackLoop_nonadaptive_cons models maxTerms maxRelatedTerms minSim
        wordBoost sumSimilarity cf k rest seeds m hm, hr]

/-- Under a supported algorithm, `trackClouds` fails exactly when the
range selection fails. -/
theorem trackClouds_error_iff_select (models : List (String × W2VModel))
    (seedTerms : List String) (maxTerms maxRelatedTerms : Nat)
    (startKey endKey : Option String) (minSim wordBoost : ℚ)
    (forwards sumSimilarity : Bool) (algorithm : String)
    (cf : CleaningFunction)
    (hsorted : (models.map (fun p => p.1)).Pairwise
      (fun a b => strLe a b = true))
    (halg : algorithm = "adaptive" ∨ algorithm = "non-adaptive") :
    (∃ e, trackClouds models seedTerms maxTerms maxRelatedTerms startKey
      endKey minSim wordBoost forwards sumSimilarity algorithm cf =
        Except.error e) ↔
    (∃ e, selectKeys (models.map (fun p => p.1)) startKey endKey =
      Except.error e) := by
  constructor
  · rintro ⟨e, he⟩
    cases hsel : selectKeys (models.map (fun p => p.1)) startKey endKey with
    | error e2 => exact ⟨e2, rfl⟩
    | ok ks =>
      exfalso
      have hspec := selectKeys_ok_spec (models.map (fun p => p.1)) hsorted
        startKey endKey ks hsel
      have hsub : ∀ k ∈ (if forwards then ks else ks.reverse),
          k ∈ models.map (fun p => p.1) := by
        intro k hk
        have hk2 : k ∈ ks := by
          cases forwards with
          | false =>
            rw [if_neg (by simp)] at hk
            exact List.mem_reverse.mp hk
          | true =>
            rw [if_pos rfl] at hk
            exact hk
        rw [hspec] at hk2
        unfold specSelect at hk2
        exact (List.mem_filter.mp hk2).1
      obtain ⟨r, hr⟩ := trackLoop_ok_of_valid models maxTerms maxRelatedTerms
        minSim wordBoost sumSimilarity algorithm cf halg
        (if forwards then ks else ks.reverse) seedTerms hsub
      rw [trackClouds_ok_select models seedTerms maxTerms maxRelatedTerms
        startKey endKey minSim wordBoost forwards sumSimilarity algorithm cf
        ks hsel, hr] at he
      simp at he
  · rintro ⟨e, he⟩
    exact ⟨e, trackClouds_error_select models seedTerms maxTerms
      maxRelatedTerms startKey endKey minSim wordBoost forwards sumSimilarity
      algorithm cf e he⟩

/- ---------------------------------------------------------------- -/
/- C5: range selection and its errors.                              -/
/- ---------------------------------------------------------------- -/

/-- C5, counterexample: both keys are loaded yet `trackClouds` raises,
because the end key is checked against the list already sliced from
the start key and here the end key lies chronologically before the
start key. -/
theorem c5_counterexample :
    trackClouds twoPeriodModels ["x"] 10 10 (some "2000_2009")
      (some "1990_1999") 0 1 true false "adaptive" none =
      Except.error "Key 1990_1999 not a valid model index" ∧
    "2000_2009" ∈ twoPeriodModels.map (fun p => p.1) ∧
    "1990_1999" ∈ twoPeriodModels.map (fun p => p.1) :=
  ⟨rfl, by decide, by decide⟩

/-- C5, amended: with a supported algorithm and the monitor's keys in
sorted order, `trackClouds` raises exactly when the supplied start key
is not among the loaded keys, or the supplied end key is not among the
loaded keys at or after the start key (in particular an end key before
the start key raises even when loaded); and a successful selection
processes exactly the half-open chronological interval
`[startKey, endKey)` of the loaded keys (the whole sequence where a
bound is omitted). -/
theorem c5_range (models : List (String × W2VModel))
    (seedTerms : List String) (maxTerms maxRelatedTerms : Nat)
    (startKey endKey : Option String) (minSim wordBoost : ℚ)
    (forwards sumSimilarity : Bool) (algorithm : String)
    (cf : CleaningFunction)
    (hsorted : (models.map (fun p => p.1)).Pairwise
      (fun a b => strLe a b = true))
    (halg : algorithm = "adaptive" ∨ algorithm = "non-adaptive") :
    ((∃ e, trackClouds models seedTerms maxTerms maxRelatedTerms startKey
        endKey minSim wordBoost forwards sumSimilarity algorithm cf =
          Except.error e) ↔
      ((∃ sk, startKey = some sk ∧ sk ∉ models.map (fun p => p.1)) ∨
       (∃ ek, endKey = some ek ∧ (ek ∉ models.map (fun p => p.1) ∨
         (∃ sk, startKey = some sk ∧ strLe sk ek = false))))) ∧
    (∀ ks, selectKeys (models.map (fun p => p.1)) startKey endKey =
        Except.ok ks →
      ks = specSelect (models.map (fun p => p.1)) startKey endKey) := by
  refine ⟨?_, fun ks hok => selectKeys_ok_spec (models.map (fun p => p.1))
    hsorted startKey endKey ks hok⟩
  exact (trackClouds_error_iff_select models seedTerms maxTerms
    maxRelatedTerms startKey endKey minSim wordBoost forwards sumSimilarity
    algorithm cf hsorted halg).trans
      (selectKeys_error_iff (models.map (fun p => p.1)) hsorted
        startKey endKey)

/-- C5, witness: the amended range behaviour at the concrete
reversed-bounds invocation. -/
theorem c5_range_witness :
    ((∃ e, trackClouds twoPeriodModels ["x"] 10 10 (some "2000_2009")
        (some "1990_1999") 0 1 true false "adaptive" none =
          Except.error e) ↔
      ((∃ sk, (some "2000_2009" : Option String) = some sk ∧
          sk ∉ twoPeriodModels.map (fun p => p.1)) ∨
       (∃ ek, (some "1990_1999" : Option String) = some ek ∧
         (ek ∉ twoPeriodModels.map (fun p => p.1) ∨
          (∃ sk, (some "2000_2009" : Option String) = some sk ∧
            strLe sk ek = false))))) ∧
    (∀ ks, selectKeys (twoPeriodModels.map (fun p => p.1))
        (some "2000_2009") (some "1990_1999") = Except.ok ks →
      ks = specSelect (twoPeriodModels.map (fun p => p.1))
        (some "2000_2009") (some "1990_1999")) :=
  c5_range twoPeriodModels ["x"] 10 10 (some "2000_2009")
    (some "1990_1999") 0 1 true false "adaptive" none (by decide)
    (Or.inl rfl)

/- ---------------------------------------------------------------- -/
/- C1: key order of the returned TrackingResult.                    -/
/- ---------------------------------------------------------------- -/

/-- Membership after a `SortedDict` insertion. -/
theorem mem_sdInsert {α : Type} (k : String) (v : α) :
    ∀ (d : List (String × α)) (p : String × α), p ∈ sdInsert k v d →
    p = (k, v) ∨ p ∈ d := by
  intro d
  induction d with
  | nil =>
    intro p hp
    simp [sdInsert] at hp
    exact Or.inl hp
  | cons q rest ih =>
    intro p hp
    obtain ⟨k2, v2⟩ := q
    rw [sdInsert] at hp
    by_cases hk : k = k2
    · rw [if_pos hk] at hp
      rcases List.mem_cons.mp hp with h | h
      · exact Or.inl h
      · exact Or.inr (List.mem_cons.mpr (Or.inr h))
    · rw [if_neg hk] at hp
      by_cases hle : strLe k k2 = true
      · rw [if_pos hle] at hp
        rcases List.mem_cons.mp hp with h | h
        · exact Or.inl h
        · exact Or.inr h
      · rw [if_neg hle] at hp
        rcases List.mem_cons.mp hp with h | h
        · exact Or.inr (List.mem_cons.mpr (Or.inl h))
        · rcases ih p h with h2 | h2
          · exact Or.inl h2
          · exact Or.inr (List.mem_cons.mpr (Or.inr h2))

/-- A `SortedDict` insertion keeps the keys sorted. -/
theorem sdInsert_pairwise {α : Type} (k : String) (v : α) :
    ∀ d : List (String × α),
    d.Pairwise (fun p q => strLe p.1 q.1 = true) →
    (sdInsert k v d).Pairwise (fun p q => strLe p.1 q.1 = true) := by
  intro d
  induction d with
  | nil => intro _; simp [sdInsert]
  | cons q rest ih =>
    intro hp
    obtain ⟨k2, v2⟩ := q
    rw [sdInsert]
    by_cases hk : k = k2
    · rw [if_pos hk]
      subst hk
      rw [List.pairwise_cons] at hp ⊢
      exact ⟨fun p hp2 => hp.1 p hp2, hp.2⟩
    · rw [if_neg hk]
      by_cases hle : strLe k k2 = true
      · rw [if_pos hle]
        rw [List.pairwise_cons] at hp
        rw [List.pairwise_cons]
        constructor
        · intro p hp2
          rcases List.mem_cons.mp hp2 with h | h
          · subst h; exact hle
          · exact strLe_trans hle (hp.1 p h)
        · rw [List.pairwise_cons]
          exact hp
      · rw [if_neg hle]
        rw [List.pairwise_cons] at hp
        rw [List.pairwise_cons]
        constructor
        · intro p hp2
          rcases mem_sdInsert k v rest p hp2 with h | h
          · subst h
            rcases strLe_total k2 k with h2 | h2
            · exact h2
            · exact absurd h2 hle
          · exact hp.1 p h
        · exact ih hp.2

/-- Folding `SortedDict` insertions over any run of results yields a
key-sorted association list. -/
theorem foldl_sdInsert_pairwise {α β : Type} (key : β → String)
    (val : β → α) :
    ∀ (rs : List β) (d : List (String × α)),
    d.Pairwise (fun p q => strLe p.1 q.1 = true) →
    (rs.foldl (fun acc r => sdInsert (key r) (val r) acc) d).Pairwise
      (fun p q => strLe p.1 q.1 = true) := by
  intro rs
  induction rs with
  | nil => intro d hd; exact hd
  | cons r rest ih =>
    intro d hd
    simp only [List.foldl_cons]
    exact ih _ (sdInsert_pairwise (key r) (val r) d hd)

/-- C1, counterexample: with direction backward the processing order is
`2000_2009, 1990_1999`, but the returned mappings are keyed in
chronological order `1990_1999, 2000_2009` — the `SortedDict` re-sorts,
so the result keys are NOT in processing order as claimed. -/
theorem c1_counterexample :
    trackClouds twoPeriodModels ["x"] 10 10 none none 0 1 false false
      "adaptive" none =
    Except.ok
      ([("1990_1999", [("x", 1)]), ("2000_2009", [("x", 1)])],
       [("1990_1999", [("x", [("x", 0)])]),
        ("2000_2009", [("x", [("x", 0)])])]) ∧
    (["1990_1999", "2000_2009"] : List String) ≠
      ["2000_2009", "1990_1999"] :=
  ⟨rfl, by decide⟩

/-- C1, amended: the terms and links mappings returned by `trackClouds`
are keyed in ascending chronological key order regardless of the
processing direction, because results are stored in `SortedDict`s. -/
theorem c1_sorted_keys (models : List (String × W2VModel))
    (seedTerms : List String) (maxTerms maxRelatedTerms : Nat)
    (startKey endKey : Option String) (minSim wordBoost : ℚ)
    (forwards sumSimilarity : Bool) (algorithm : String)
    (cf : CleaningFunction) (t : List (String × TermWeights))
    (l : List (String × LinkSet))
    (h : trackClouds models seedTerms maxTerms maxRelatedTerms startKey
      endKey minSim wordBoost forwards sumSimilarity algorithm cf =
        Except.ok (t, l)) :
    t.Pairwise (fun p q => strLe p.1 q.1 = true) ∧
    l.Pairwise (fun p q => strLe p.1 q.1 = true) := by
  cases hsel : selectKeys (models.map (fun p => p.1)) startKey endKey with
  | error e =>
    rw [trackClouds_error_select models seedTerms maxTerms maxRelatedTerms
      startKey endKey minSim wordBoost forwards sumSimilarity algorithm cf
      e hsel] at h
    exact absurd h (by simp)
  | ok ks =>
    rw [trackClouds_ok_select models seedTerms maxTerms maxRelatedTerms
      startKey endKey minSim wordBoost forwards sumSimilarity algorithm cf
      ks hsel] at h
    cases hloop : trackLoop models maxTerms maxRelatedTerms minSim wordBoost
        sumSimilarity algorithm cf
        (if forwards then ks else ks.reverse) seedTerms with
    | error e =>
      rw [hloop] at h
      exact absurd h (by simp)
    | ok results =>
      rw [hloop] at h
      have hpair := Except.ok.inj h
      rw [Prod.mk.injEq] at hpair
      constructor
      · rw [← hpair.1]
        exact foldl_sdInsert_pairwise (fun r => r.1) (fun r => r.2.1)
          results [] (by simp)
      · rw [← hpair.2]
        exact foldl_sdInsert_pairwise (fun r => r.1) (fun r => r.2.2)
          results [] (by simp)

/-- C1, witness: sortedness of the concrete backward run. -/
theorem c1_sorted_keys_witness :
    ([("1990_1999", [("x", (1 : ℚ))]),
      ("2000_2009", [("x", 1)])].Pairwise
        (fun p q => strLe p.1 q.1 = true)) ∧
    ([("1990_1999", [("x", [("x", (0 : ℚ))])]),
      ("2000_2009", [("x", [("x", 0)])])].Pairwise
        (fun p q => strLe p.1 q.1 = true)) :=
  c1_sorted_keys twoPeriodModels ["x"] 10 10 none none 0 1 false false
    "adaptive" none
    [("1990_1999", [("x", 1)]), ("2000_2009", [("x", 1)])]
    [("1990_1999", [("x", [("x", 0)])]), ("2000_2009", [("x", [("x", 0)])])]
    rfl

/- ---------------------------------------------------------------- -/
/- C6: seed-set propagation between periods.                        -/
/- ---------------------------------------------------------------- -/

/-- The new seed set built by `_trackInlink` is exactly the produced
vocabulary terms stripped of their weights. -/
theorem trackInlink_newSeeds (model : W2VModel) (seeds : List String)
    (maxTerms maxRelatedTerms : Nat) (minSim wordBoost : ℚ)
    (sumSimilarity : Bool) (cf : CleaningFunction) :
    (_trackInlink model seeds maxTerms maxRelatedTerms minSim wordBoost
      sumSimilarity cf).2.2 =
    ((_trackInlink model seeds maxTerms maxRelatedTerms minSim wordBoost
      sumSimilarity cf).1).map (fun p => p.1) := rfl

/-- C6, confirmed: in adaptive mode every successful run of the
tracking loop satisfies the seed-propagation relation — the seed set
used for period `i+1` is exactly the vocabulary of period `i` stripped
of weights; in non-adaptive mode every processed period is expanded by
`_trackCore` from the same original seed set. -/
theorem c6_seed_propagation (models : List (String × W2VModel))
    (maxTerms maxRelatedTerms : Nat) (minSim wordBoost : ℚ)
    (sumSimilarity : Bool) (cf : CleaningFunction) :
    (∀ (ks seeds : List String) (r : List (String × TermWeights × LinkSet)),
      trackLoop models maxTerms maxRelatedTerms minSim wordBoost
        sumSimilarity "adaptive" cf ks seeds = Except.ok r →
      AdaptiveSeeds models maxTerms maxRelatedTerms minSim wordBoost
        sumSimilarity cf seeds r) ∧
    (∀ (ks seeds : List String) (r : List (String × TermWeights × LinkSet)),
      trackLoop models maxTerms maxRelatedTerms minSim wordBoost
        sumSimilarity "non-adaptive" cf ks seeds = Except.ok r →
      ∀ e ∈ r, ∃ m,
        models.lookup (e : String × TermWeights × LinkSet).1 = some m ∧
        e.2 = _trackCore m seeds maxTerms maxRelatedTerms minSim 1
          (fun _ => 1) cf) := by
  constructor
  · intro ks
    induction ks with
    | nil =>
      intro seeds r h
      obtain rfl := Except.ok.inj h
      exact AdaptiveSeeds.nil seeds
    | cons k rest ih =>
      intro seeds r h
      cases hm : models.lookup k with
      | none =>
        rw [trackLoop, hm] at h
        exact absurd h (by simp)
      | some m =>
        rw [trackLoop_adaptive_cons models maxTerms maxRelatedTerms minSim
          wordBoost sumSimilarity cf k rest seeds m hm] at h
        cases hloop : trackLoop models maxTerms maxRelatedTerms minSim
            wordBoost sumSimilarity "adaptive" cf rest
            (_trackInlink m seeds maxTerms maxRelatedTerms minSim wordBoost
              sumSimilarity cf).2.2 with
        | error e =>
          rw [hloop] at h
          exact absurd h (by simp)
        | ok rs =>
          rw [hloop] at h
          obtain rfl := Except.ok.inj h
          refine AdaptiveSeeds.cons seeds k m _ _ rs hm rfl rfl ?_
          exact trackInlink_newSeeds m seeds maxTerms maxRelatedTerms minSim
            wordBoost sumSimilarity cf ▸ ih
              (_trackInlink m seeds maxTerms maxRelatedTerms minSim wordBoost
                sumSimilarity cf).2.2 rs hloop
  · intro ks
    induction ks with
    | nil =>
      intro seeds r h
      obtain rfl := Except.ok.inj h
      intro e he
      exact absurd he (by simp)
    | cons k rest ih =>
      intro seeds r h
      cases hm : models.lookup k with
      | none =>
        rw [trackLoop, hm] at h
        exact absurd h (by simp)
      | some m =>
        rw [trackLoop_nonadaptive_cons models maxTerms maxRelatedTerms minSim
          wordBoost sumSimilarity cf k rest seeds m hm] at h
        cases hloop : trackLoop models maxTerms maxRelatedTerms minSim
            wordBoost sumSimilarity "non-adaptive" cf rest seeds with
        | error e =>
          rw [hloop] at h
          exact absurd h (by simp)
        | ok rs =>
          rw [hloop] at h
          obtain rfl := Except.ok.inj h
          intro e he
          rcases List.mem_cons.mp he with h2 | h2
          · subst h2
            exact ⟨m, hm, rfl⟩
          · exact ih seeds rs hloop e h2

/-- C6, witness: the seed-propagation relation holds of a concrete
single-period adaptive run. -/
theorem c6_seed_propagation_witness :
    AdaptiveSeeds twoPeriodModels 10 10 0 1 false none ["x"]
      [("1990_1999", [("x", 1)], [("x", [("x", 0)])])] :=
  (c6_seed_propagation twoPeriodModels 10 10 0 1 false none).1
    ["1990_1999"] ["x"]
    [("1990_1999", [("x", 1)], [("x", [("x", 0)])])] rfl

end ShiCo
